import Mathlib

/-!
The package go-stream: a byte-level lookahead buffer.

Shallow embedding of `stream.go` (package `stream`).  A `Stream` couples an
`io.Reader` with the slice `Buf` of bytes already pulled from the reader and
not yet consumed.  Every method of the Go type is a function taking the stream
and returning the Go results together with the stream after the call.

Conventions of the embedding:

* a Go `[]byte` value is a `List Byte`; a slice that may be `nil` and whose
  nil-ness the code inspects (`PeekUntil`, `ReadUntil`, ...) is an
  `Option (List Byte)`, `none` being `nil`;
* a Go result pair `(v, err)` is an `Except Error _`: the code returns the zero
  value of `v` whenever `err != nil`;
* Go `int` arguments are `Nat` (lengths and counts, never negative here);
* slice expressions are bounds-checked against the length of the slice, and a
  failed check is the outcome `Run.panic` (Go checks against the capacity,
  which is at least the length, so the embedding panics whenever Go does);
* the unbounded `for` loops take a bound `fuel` on their number of iterations;
  running out of it is the outcome `Run.timeout`;
* in `Peek`, `PeekUpTo`, `Skip`, `Read` and the methods built on them every
  allocation succeeds; `PeekAlloc`, `PeekUpToAlloc`, `SkipAlloc` and `ReadAlloc`
  embed the same four methods with the allocator made explicit: `alloc k` tells
  whether a `make` of `k` bytes is granted, and a refused request is a panic
  (Go panics with `makeslice: len out of range` or aborts out of memory);
  `append` succeeds once its argument was allocated.

`io.ReadAtLeast`, `bytes.Reader` and `bytes.Index` belong to the Go standard
library; they are embedded from their library sources, next to the code of the
package.
-/

namespace GoStream

/-- A Go `byte`. -/
abbrev Byte := Fin 256

/-- The `error` values the code can meet: the three sentinels of package `io`
that matter here, and any other (hard) failure of a reader. -/
inductive Error where
  | EOF
  | ErrUnexpectedEOF
  | ErrShortBuffer
  | other (code : Nat)
  deriving DecidableEq, Repr

/-- Function `isEOF`: `err == io.EOF || err == io.ErrUnexpectedEOF`. -/
def isEOF (err : Error) : Bool :=
  err == Error.EOF || err == Error.ErrUnexpectedEOF

/-- Outcome of running a piece of code: it returns, it panics (slice bounds
out of range), or a loop exceeded the iteration bound. -/
inductive Run (α : Type) where
  | done (a : α)
  | panic
  | timeout
  deriving DecidableEq, Repr

/-- Sequencing of outcomes. -/
def Run.bind {α β : Type} (x : Run α) (f : α → Run β) : Run β :=
  match x with
  | Run.done a => f a
  | Run.panic => Run.panic
  | Run.timeout => Run.timeout

instance : Monad Run where
  pure := Run.done
  bind := Run.bind

/-- The slice expression `b[lo:]`. -/
def sliceFrom (b : List Byte) (lo : Nat) : Run (List Byte) :=
  if lo ≤ b.length then Run.done (b.drop lo) else Run.panic

/-- The slice expression `b[0:hi]`. -/
def sliceTo (b : List Byte) (hi : Nat) : Run (List Byte) :=
  if hi ≤ b.length then Run.done (b.take hi) else Run.panic

/-- The builtin `copy(dst, src)`: the contents of `dst` afterwards. -/
def copy (dst src : List Byte) : List Byte :=
  src.take dst.length ++ dst.drop src.length

/-- Function `make([]byte, n)`. -/
def make (n : Nat) : List Byte := List.replicate n 0

/-- Function `dupBytes`: a fresh slice of the same length, filled by `copy`. -/
def dupBytes (data : List Byte) : List Byte :=
  let ndata := make data.length
  copy ndata data

/-- An `io.Reader`.  `Read r k` is the call `r.Read(p)` with `len(p) = k`: it
yields the bytes stored into `p[0:n]` (so `n` is their number), the error
value, and the reader afterwards.  A reader reporting `n > len(p)` breaks the
contract of `io.Reader`; the callers below treat that as a panic. -/
class IoReader (ρ : Type) where
  Read : ρ → Nat → List Byte × Option Error × ρ

/-- The contents of a buffer `buf` after a reader stored `got` at offset `off`. -/
def stored (buf : List Byte) (off : Nat) (got : List Byte) : List Byte :=
  buf.take off ++ got ++ buf.drop (off + got.length)

/-- A `bytes.Reader` of the Go standard library: the byte slice `s` and the
current reading index `i`. -/
structure BytesReader where
  s : List Byte
  i : Nat
  deriving DecidableEq, Repr

/-- Method `(*bytes.Reader).Read`: at the end of `s` it returns `0, io.EOF`;
otherwise `n = copy(b, r.s[r.i:])`, `r.i += n`, and a nil error. -/
def BytesReader.Read (r : BytesReader) (k : Nat) : List Byte × Option Error × BytesReader :=
  if r.i ≥ r.s.length then ([], some Error.EOF, r)
  else
    let data := (r.s.drop r.i).take k
    (data, none, { r with i := r.i + data.length })

instance : IoReader BytesReader where
  Read := BytesReader.Read

/-- The loop of `io.ReadAtLeast`:
`for n < min && err == nil { nn, err = r.Read(buf[n:]); n += nn }`.
`got` holds the `n` bytes stored so far. -/
def readAtLeastLoop {ρ : Type} [IoReader ρ] (bufLen min : Nat) :
    Nat → ρ → List Byte → Option Error → Run (List Byte × Option Error × ρ)
  | 0, r, got, err =>
    if got.length < min ∧ err = none then Run.timeout else Run.done (got, err, r)
  | fuel + 1, r, got, err =>
    if got.length < min ∧ err = none then
      match IoReader.Read r (bufLen - got.length) with
      | (data, err1, r1) =>
        if bufLen - got.length < data.length then Run.panic
        else readAtLeastLoop bufLen min fuel r1 (got ++ data) err1
    else Run.done (got, err, r)

/-- Function `io.ReadAtLeast(r, buf, min)` of the Go standard library, with
`bufLen = len(buf)`: the bytes stored into `buf[0:n]`, the error, the reader. -/
def ReadAtLeast {ρ : Type} [IoReader ρ] (fuel : Nat) (r : ρ) (bufLen min : Nat) :
    Run (List Byte × Option Error × ρ) :=
  if bufLen < min then Run.done ([], some Error.ErrShortBuffer, r)
  else
    (readAtLeastLoop bufLen min fuel r [] none).bind fun (got, err, r1) =>
      if got.length ≥ min then Run.done (got, none, r1)
      else if got.length > 0 ∧ err = some Error.EOF then
        Run.done (got, some Error.ErrUnexpectedEOF, r1)
      else Run.done (got, err, r1)

/-- The type `Stream`: a reader and the pending bytes. -/
structure Stream (ρ : Type) where
  Reader : ρ
  Buf : List Byte
  deriving DecidableEq, Repr

/-- Function `NewStream`. -/
def NewStream {ρ : Type} (r : ρ) : Stream ρ :=
  { Reader := r, Buf := [] }

/-- Function `NewStreamBytes`: `NewStream(bytes.NewReader(data))`. -/
def NewStreamBytes (data : List Byte) : Stream BytesReader :=
  NewStream { s := data, i := 0 }

/-- Method `(*Stream).Peek`. -/
def Peek {ρ : Type} [IoReader ρ] (fuel : Nat) (s : Stream ρ) (n : Nat) :
    Run (Except Error (List Byte) × Stream ρ) :=
  if s.Buf.length < n then
    let blen := s.Buf.length
    let rest := n - blen
    let buf := s.Buf ++ make rest
    (sliceFrom buf blen).bind fun dst =>
    (ReadAtLeast fuel s.Reader dst.length rest).bind fun (got, err, r1) =>
      let buf1 := stored buf blen got
      match err with
      | some e =>
        (sliceTo buf1 (blen + got.length)).bind fun b =>
          Run.done (Except.error e, { Reader := r1, Buf := b })
      | none =>
        (sliceTo buf1 n).bind fun d =>
          Run.done (Except.ok (dupBytes d), { Reader := r1, Buf := buf1 })
  else
    (sliceTo s.Buf n).bind fun d =>
      Run.done (Except.ok (dupBytes d), s)

/-- Method `(*Stream).IsEmpty`. -/
def IsEmpty {ρ : Type} [IoReader ρ] (fuel : Nat) (s : Stream ρ) :
    Run (Except Error Bool × Stream ρ) :=
  if s.Buf.length > 0 then Run.done (Except.ok false, s)
  else
    (Peek fuel s 1).bind fun (res, s1) =>
      match res with
      | Except.error err =>
        if isEOF err then Run.done (Except.ok true, s1)
        else Run.done (Except.error err, s1)
      | Except.ok _ => Run.done (Except.ok false, s1)

/-- Method `(*Stream).PeekUpTo`. -/
def PeekUpTo {ρ : Type} [IoReader ρ] (fuel : Nat) (s : Stream ρ) (n : Nat) :
    Run (Except Error (List Byte) × Stream ρ) :=
  (Peek fuel s n).bind fun (res, s1) =>
    let clamp : Run (Except Error (List Byte) × Stream ρ) :=
      let n1 := if n ≥ s1.Buf.length then s1.Buf.length else n
      (sliceTo s1.Buf n1).bind fun d => Run.done (Except.ok (dupBytes d), s1)
    match res with
    | Except.error err =>
      if !isEOF err then Run.done (Except.error err, s1) else clamp
    | Except.ok _ => clamp

/-- Method `(*Stream).StartsWithBytes`; `bytes.Equal` is equality of contents. -/
def StartsWithBytes {ρ : Type} [IoReader ρ] (fuel : Nat) (s : Stream ρ) (bs : List Byte) :
    Run (Except Error Bool × Stream ρ) :=
  (Peek fuel s bs.length).bind fun (res, s1) =>
    match res with
    | Except.error err => Run.done (Except.error err, s1)
    | Except.ok data => Run.done (Except.ok (decide (data = bs)), s1)

/-- Method `(*Stream).StartsWithByte`; `data[0]` panics on an empty slice. -/
def StartsWithByte {ρ : Type} [IoReader ρ] (fuel : Nat) (s : Stream ρ) (b : Byte) :
    Run (Except Error Bool × Stream ρ) :=
  (Peek fuel s 1).bind fun (res, s1) =>
    match res with
    | Except.error err => Run.done (Except.error err, s1)
    | Except.ok data =>
      match data with
      | [] => Run.panic
      | d0 :: _ => Run.done (Except.ok (decide (d0 = b)), s1)

/-- Method `(*Stream).Skip`. -/
def Skip {ρ : Type} [IoReader ρ] (fuel : Nat) (s : Stream ρ) (n : Nat) :
    Run (Except Error Unit × Stream ρ) :=
  (Peek fuel s n).bind fun (res, s1) =>
    match res with
    | Except.error err => Run.done (Except.error err, s1)
    | Except.ok _ =>
      (sliceFrom s1.Buf n).bind fun b =>
        Run.done (Except.ok (), { s1 with Buf := b })

/-- Method `(*Stream).SkipBytes`. -/
def SkipBytes {ρ : Type} [IoReader ρ] (fuel : Nat) (s : Stream ρ) (bs : List Byte) :
    Run (Except Error Bool × Stream ρ) :=
  (Peek fuel s bs.length).bind fun (res, s1) =>
    match res with
    | Except.error err => Run.done (Except.error err, s1)
    | Except.ok data =>
      if data = bs then
        (sliceFrom s1.Buf bs.length).bind fun b =>
          Run.done (Except.ok true, { s1 with Buf := b })
      else Run.done (Except.ok false, s1)

/-- Method `(*Stream).SkipByte`. -/
def SkipByte {ρ : Type} [IoReader ρ] (fuel : Nat) (s : Stream ρ) (b : Byte) :
    Run (Except Error Bool × Stream ρ) :=
  SkipBytes fuel s [b]

/-- Method `(*Stream).Read`. -/
def Read {ρ : Type} [IoReader ρ] (fuel : Nat) (s : Stream ρ) (n : Nat) :
    Run (Except Error (List Byte) × Stream ρ) :=
  (Peek fuel s n).bind fun (res, s1) =>
    match res with
    | Except.error err => Run.done (Except.error err, s1)
    | Except.ok data =>
      (sliceFrom s1.Buf n).bind fun b =>
        Run.done (Except.ok data, { s1 with Buf := b })

/-- The loop of `(*Stream).ReadAll`; `buf` is the contents of the
`bytes.Buffer` accumulating the chunks. -/
def readAllLoop {ρ : Type} [IoReader ρ] (fuel : Nat) :
    Nat → Stream ρ → List Byte → Run (Except Error (List Byte) × Stream ρ)
  | 0, _, _ => Run.timeout
  | k + 1, s, buf =>
    (PeekUpTo fuel s 4096).bind fun (res, s1) =>
      match res with
      | Except.error err => Run.done (Except.error err, s1)
      | Except.ok data =>
        let buf1 := buf ++ data
        (sliceFrom s1.Buf data.length).bind fun b =>
          let s2 : Stream ρ := { s1 with Buf := b }
          (IsEmpty fuel s2).bind fun (res2, s3) =>
            match res2 with
            | Except.error err => Run.done (Except.error err, s3)
            | Except.ok empty =>
              if empty then Run.done (Except.ok buf1, s3)
              else readAllLoop fuel k s3 buf1

/-- Method `(*Stream).ReadAll`. -/
def ReadAll {ρ : Type} [IoReader ρ] (fuel : Nat) (s : Stream ρ) :
    Run (Except Error (List Byte) × Stream ρ) :=
  readAllLoop fuel fuel s []

/-- The constant `blockSize` of `ReadWhile`. -/
def blockSize : Nat := 32

/-- The inner loop `for i, b := range block` of `ReadWhile`, from index `i`
on: the accumulated `data`, and `some i` when it left both loops at the byte of
index `i` failing `fn`. -/
def rangeBlock (fn : Byte → Bool) : List Byte → Nat → List Byte → List Byte × Option Nat
  | [], _, data => (data, none)
  | b :: bs, i, data =>
    if !fn b then (data, some i)
    else rangeBlock fn bs (i + 1) (data ++ [b])

/-- The outer loop of `(*Stream).ReadWhile`. -/
def readWhileLoop {ρ : Type} [IoReader ρ] (fuel : Nat) (fn : Byte → Bool) :
    Nat → Stream ρ → List Byte → Run (Except Error (List Byte) × Stream ρ)
  | 0, _, _ => Run.timeout
  | k + 1, s, data =>
    (PeekUpTo fuel s blockSize).bind fun (res, s1) =>
      match res with
      | Except.error err => Run.done (Except.error err, s1)
      | Except.ok block =>
        if block.length = 0 then Run.done (Except.ok data, s1)
        else
          match rangeBlock fn block 0 data with
          | (data1, some i) =>
            (sliceFrom s1.Buf i).bind fun b =>
              Run.done (Except.ok data1, { s1 with Buf := b })
          | (data1, none) =>
            (sliceFrom s1.Buf block.length).bind fun b =>
              readWhileLoop fuel fn k { s1 with Buf := b } data1

/-- Method `(*Stream).ReadWhile`. -/
def ReadWhile {ρ : Type} [IoReader ρ] (fuel : Nat) (s : Stream ρ) (fn : Byte → Bool) :
    Run (Except Error (List Byte) × Stream ρ) :=
  readWhileLoop fuel fn fuel s []

/-- Method `(*Stream).SkipWhile`. -/
def SkipWhile {ρ : Type} [IoReader ρ] (fuel : Nat) (s : Stream ρ) (fn : Byte → Bool) :
    Run (Except Error Unit × Stream ρ) :=
  (ReadWhile fuel s fn).bind fun (res, s1) =>
    Run.done (res.map (fun _ => ()), s1)

/-- Function `bytes.Index(s, sep)` of the Go standard library: the index of the first
instance of `sep` in `s`; `none` stands for the result `-1`. -/
def Index : List Byte → List Byte → Option Nat
  | [], sep => if sep = [] then some 0 else none
  | b :: t, sep =>
    if sep.isPrefixOf (b :: t) then some 0
    else (Index t sep).map (· + 1)

/-- Method `(*Stream).PeekUntil`; each iteration of its `for` loop uses one unit of
`fuel`. -/
def PeekUntil {ρ : Type} [IoReader ρ] :
    Nat → Stream ρ → List Byte → Run (Except Error (Option (List Byte)) × Stream ρ)
  | 0, _, _ => Run.timeout
  | fuel + 1, s, delim =>
    match Index s.Buf delim with
    | some idx =>
      (sliceTo s.Buf idx).bind fun d =>
        Run.done (Except.ok (some (dupBytes d)), s)
    | none =>
      let blen := s.Buf.length
      let buf := s.Buf ++ make 4096
      (sliceFrom buf blen).bind fun dst =>
        match IoReader.Read s.Reader dst.length with
        | (got, err, r1) =>
          if dst.length < got.length then Run.panic
          else
            (sliceTo (stored buf blen got) (blen + got.length)).bind fun b =>
              let s1 : Stream ρ := { Reader := r1, Buf := b }
              match err with
              | some e =>
                if isEOF e then Run.done (Except.ok none, s1)
                else Run.done (Except.error e, s1)
              | none => PeekUntil fuel s1 delim

/-- Method `(*Stream).PeekUntilByte`. -/
def PeekUntilByte {ρ : Type} [IoReader ρ] (fuel : Nat) (s : Stream ρ) (delim : Byte) :
    Run (Except Error (Option (List Byte)) × Stream ρ) :=
  PeekUntil fuel s [delim]

/-- Method `(*Stream).ReadUntil`. -/
def ReadUntil {ρ : Type} [IoReader ρ] (fuel : Nat) (s : Stream ρ) (delim : List Byte) :
    Run (Except Error (Option (List Byte)) × Stream ρ) :=
  (PeekUntil fuel s delim).bind fun (res, s1) =>
    match res with
    | Except.error err => Run.done (Except.error err, s1)
    | Except.ok none => Run.done (Except.ok none, s1)
    | Except.ok (some data) =>
      (sliceFrom s1.Buf data.length).bind fun b =>
        Run.done (Except.ok (some data), { s1 with Buf := b })

/-- Method `(*Stream).ReadUntilAndSkip`. -/
def ReadUntilAndSkip {ρ : Type} [IoReader ρ] (fuel : Nat) (s : Stream ρ) (delim : List Byte) :
    Run (Except Error (Option (List Byte)) × Stream ρ) :=
  (PeekUntil fuel s delim).bind fun (res, s1) =>
    match res with
    | Except.error err => Run.done (Except.error err, s1)
    | Except.ok none => Run.done (Except.ok none, s1)
    | Except.ok (some data) =>
      (sliceFrom s1.Buf (data.length + delim.length)).bind fun b =>
        Run.done (Except.ok (some data), { s1 with Buf := b })

/-- Method `(*Stream).ReadUntilByte`. -/
def ReadUntilByte {ρ : Type} [IoReader ρ] (fuel : Nat) (s : Stream ρ) (delim : Byte) :
    Run (Except Error (Option (List Byte)) × Stream ρ) :=
  ReadUntil fuel s [delim]

/-- Method `(*Stream).ReadUntilByteAndSkip`. -/
def ReadUntilByteAndSkip {ρ : Type} [IoReader ρ] (fuel : Nat) (s : Stream ρ) (delim : Byte) :
    Run (Except Error (Option (List Byte)) × Stream ρ) :=
  ReadUntilAndSkip fuel s [delim]

/-- The undelivered bytes `s[i:]` of a `bytes.Reader`. -/
def BytesReader.unread (r : BytesReader) : List Byte :=
  r.s.drop r.i

/-- The stream content of a stream over an in-memory source: the pending bytes
followed by the undelivered bytes of the source (what `assertStreamEqual` of
the test suite compares). -/
def content (s : Stream BytesReader) : List Byte :=
  s.Buf ++ s.Reader.unread

/-- The reader after `io.ReadAtLeast` asked for `k` bytes. -/
def BytesReader.advance (r : BytesReader) (k : Nat) : BytesReader :=
  if r.s.length ≤ r.i then r else { s := r.s, i := r.i + (r.unread.take k).length }

/-- The error `io.ReadAtLeast` reports on an in-memory source that cannot
deliver the bytes asked for. -/
def eofError (unread : List Byte) : Error :=
  if unread = [] then Error.EOF else Error.ErrUnexpectedEOF

/-- The stream `Peek(n)` leaves behind on an in-memory source: the missing
`n - len(Buf)` bytes, as far as the source has them, moved from the source to
the back of `Buf`. -/
def afterPeek (s : Stream BytesReader) (n : Nat) : Stream BytesReader :=
  { Reader := s.Reader.advance (n - s.Buf.length),
    Buf := s.Buf ++ s.Reader.unread.take (n - s.Buf.length) }

/-- What the Peek family promises about an outcome `out` of a call on the
stream `s` over an in-memory source: the call returns, the former pending bytes
are a prefix of the pending bytes afterwards, and the content is the same. -/
def PeekLike {α : Type} (s : Stream BytesReader) (out : Run (α × Stream BytesReader)) : Prop :=
  ∃ r s1, out = Run.done (r, s1) ∧ s.Buf <+: s1.Buf ∧ content s1 = content s

/-- The outcome `out` is a normal return: no slice or index expression was
out of range on the way, and no loop exceeded its bound. -/
def Returns {α : Type} (out : Run α) : Prop :=
  ∃ a, out = Run.done a

/-- A reader over the byte slice `s` that reports `io.EOF` together with the
last bytes it delivers instead of on the read after them; the contract of
`io.Reader` allows both. -/
structure FinalDataReader where
  s : List Byte
  i : Nat
  deriving DecidableEq, Repr

/-- The `Read` method of a `FinalDataReader`: `n = copy(b, r.s[r.i:])`,
`r.i += n`, and `io.EOF` as soon as the end of `s` is reached. -/
def FinalDataReader.Read (r : FinalDataReader) (k : Nat) :
    List Byte × Option Error × FinalDataReader :=
  let data := (r.s.drop r.i).take k
  let i1 := r.i + data.length
  (data, if i1 ≥ r.s.length then some Error.EOF else none, { r with i := i1 })

instance : IoReader FinalDataReader where
  Read := FinalDataReader.Read

/-- A reader that delivers the bytes of `s` and then fails with the hard error
`Error.other code` (a connection that breaks after these bytes). -/
structure BrokenReader where
  s : List Byte
  i : Nat
  code : Nat
  deriving DecidableEq, Repr

/-- The `Read` method of a `BrokenReader`: past the end of `s` it returns
`0` and the hard error; otherwise `n = copy(b, r.s[r.i:])`, `r.i += n`, and a
nil error. -/
def BrokenReader.Read (r : BrokenReader) (k : Nat) :
    List Byte × Option Error × BrokenReader :=
  if r.i ≥ r.s.length then ([], some (Error.other r.code), r)
  else
    let data := (r.s.drop r.i).take k
    (data, none, { r with i := r.i + data.length })

instance : IoReader BrokenReader where
  Read := BrokenReader.Read

/-- A call of one of the three consuming operations of the round trip. -/
inductive Call where
  | read (n : Nat)
  | readWhile (fn : Byte → Bool)
  | readUntilAndSkip (delim : List Byte)

/-- Running one call: the byte sequence it returns (`none` for the nil result
of `ReadUntilAndSkip`) or its error, and the stream afterwards. -/
def Call.run {ρ : Type} [IoReader ρ] (fuel : Nat) (s : Stream ρ) :
    Call → Run (Except Error (Option (List Byte)) × Stream ρ)
  | Call.read n => (Read fuel s n).bind fun (res, s1) => Run.done (res.map some, s1)
  | Call.readWhile fn => (ReadWhile fuel s fn).bind fun (res, s1) => Run.done (res.map some, s1)
  | Call.readUntilAndSkip delim => ReadUntilAndSkip fuel s delim

/-- Running a sequence of calls one after the other, as long as they succeed:
the calls paired with the byte sequences they returned, in call order, and the
stream after the last one; the first error ends the run. -/
def runCalls {ρ : Type} [IoReader ρ] (fuel : Nat) :
    List Call → Stream ρ → Run (Except Error (List (Call × Option (List Byte))) × Stream ρ)
  | [], s => Run.done (Except.ok [], s)
  | c :: cs, s =>
    (c.run fuel s).bind fun (res, s1) =>
      match res with
      | Except.error err => Run.done (Except.error err, s1)
      | Except.ok out =>
        (runCalls fuel cs s1).bind fun (res2, s2) =>
          Run.done (res2.map (fun outs => (c, out) :: outs), s2)

/-- The byte sequence a call returned, nothing for a nil result. -/
def returned (co : Call × Option (List Byte)) : List Byte :=
  co.2.getD []

/-- The bytes a call took from the stream, told from what it returned: the
sequence returned, followed by the delimiter for a `ReadUntilAndSkip` that
found it. -/
def taken : Call × Option (List Byte) → List Byte
  | (Call.readUntilAndSkip delim, some data) => data ++ delim
  | (_, some data) => data
  | (_, none) => []

/-- A source that holds finitely many bytes, `size r` of them in the state
`r`, and whose every read delivers at least one byte, signals exhaustion, or
fails with a hard error:
`read_le`, a read stores no more bytes than the destination holds;
`size_read`, the bytes a read delivers are taken out of those the source holds;
`progress`, a read into a nonempty destination that reports no error delivers
at least one byte;
`exhausted`, after a read that signals the end of input the source holds no
more bytes. -/
structure FiniteSource (ρ : Type) [IoReader ρ] (size : ρ → Nat) : Prop where
  read_le : ∀ (r : ρ) (k : Nat), (IoReader.Read r k).1.length ≤ k
  size_read : ∀ (r : ρ) (k : Nat),
    size (IoReader.Read r k).2.2 + (IoReader.Read r k).1.length ≤ size r
  progress : ∀ (r : ρ) (k : Nat), 0 < k → (IoReader.Read r k).2.1 = none →
    0 < (IoReader.Read r k).1.length
  exhausted : ∀ (r : ρ) (k : Nat) (e : Error), (IoReader.Read r k).2.1 = some e →
    isEOF e = true → size (IoReader.Read r k).2.2 = 0

/-- The number of bytes not yet consumed from a stream over a source holding
`size r` bytes: the pending bytes and those the source still holds. -/
def unconsumed {ρ : Type} (size : ρ → Nat) (s : Stream ρ) : Nat :=
  s.Buf.length + size s.Reader

/-- Function `make([]byte, n)` under the allocator `alloc`: the zeroed slice,
or a panic when the request for `n` bytes is refused. -/
def makeslice (alloc : Nat → Bool) (n : Nat) : Run (List Byte) :=
  if alloc n then Run.done (make n) else Run.panic

/-- Function `dupBytes` under the allocator `alloc`. -/
def dupBytesAlloc (alloc : Nat → Bool) (data : List Byte) : Run (List Byte) :=
  (makeslice alloc data.length).bind fun ndata => Run.done (copy ndata data)

/-- Method `(*Stream).Peek` under the allocator `alloc`: the `make` of
`n - len(Buf)` bytes comes before the read. -/
def PeekAlloc {ρ : Type} [IoReader ρ] (alloc : Nat → Bool) (fuel : Nat) (s : Stream ρ) (n : Nat) :
    Run (Except Error (List Byte) × Stream ρ) :=
  if s.Buf.length < n then
    let blen := s.Buf.length
    let rest := n - blen
    (makeslice alloc rest).bind fun zeros =>
    let buf := s.Buf ++ zeros
    (sliceFrom buf blen).bind fun dst =>
    (ReadAtLeast fuel s.Reader dst.length rest).bind fun (got, err, r1) =>
      let buf1 := stored buf blen got
      match err with
      | some e =>
        (sliceTo buf1 (blen + got.length)).bind fun b =>
          Run.done (Except.error e, { Reader := r1, Buf := b })
      | none =>
        (sliceTo buf1 n).bind fun d =>
        (dupBytesAlloc alloc d).bind fun c =>
          Run.done (Except.ok c, { Reader := r1, Buf := buf1 })
  else
    (sliceTo s.Buf n).bind fun d =>
    (dupBytesAlloc alloc d).bind fun c =>
      Run.done (Except.ok c, s)

/-- Method `(*Stream).PeekUpTo` under the allocator `alloc`. -/
def PeekUpToAlloc {ρ : Type} [IoReader ρ] (alloc : Nat → Bool) (fuel : Nat) (s : Stream ρ)
    (n : Nat) : Run (Except Error (List Byte) × Stream ρ) :=
  (PeekAlloc alloc fuel s n).bind fun (res, s1) =>
    let clamp : Run (Except Error (List Byte) × Stream ρ) :=
      let n1 := if n ≥ s1.Buf.length then s1.Buf.length else n
      (sliceTo s1.Buf n1).bind fun d =>
      (dupBytesAlloc alloc d).bind fun c => Run.done (Except.ok c, s1)
    match res with
    | Except.error err =>
      if !isEOF err then Run.done (Except.error err, s1) else clamp
    | Except.ok _ => clamp

/-- Method `(*Stream).Skip` under the allocator `alloc`. -/
def SkipAlloc {ρ : Type} [IoReader ρ] (alloc : Nat → Bool) (fuel : Nat) (s : Stream ρ) (n : Nat) :
    Run (Except Error Unit × Stream ρ) :=
  (PeekAlloc alloc fuel s n).bind fun (res, s1) =>
    match res with
    | Except.error err => Run.done (Except.error err, s1)
    | Except.ok _ =>
      (sliceFrom s1.Buf n).bind fun b =>
        Run.done (Except.ok (), { s1 with Buf := b })

/-- Method `(*Stream).Read` under the allocator `alloc`. -/
def ReadAlloc {ρ : Type} [IoReader ρ] (alloc : Nat → Bool) (fuel : Nat) (s : Stream ρ) (n : Nat) :
    Run (Except Error (List Byte) × Stream ρ) :=
  (PeekAlloc alloc fuel s n).bind fun (res, s1) =>
    match res with
    | Except.error err => Run.done (Except.error err, s1)
    | Except.ok data =>
      (sliceFrom s1.Buf n).bind fun b =>
        Run.done (Except.ok data, { s1 with Buf := b })

/-- An allocator that grants the requests of at most `2^48` bytes, the largest
allocation of the Go runtime on a 64-bit Linux (`maxAlloc`), and refuses the
others, as every allocator there does. -/
def allocLinux64 (k : Nat) : Bool :=
  decide (k ≤ 2 ^ 48)

/-! ## Basic facts about the embedding -/

@[simp] theorem Run.bind_done {α β : Type} (a : α) (f : α → Run β) :
    (Run.done a).bind f = f a := rfl

@[simp] theorem Run.bind_panic {α β : Type} (f : α → Run β) :
    (Run.panic : Run α).bind f = Run.panic := rfl

@[simp] theorem Run.bind_timeout {α β : Type} (f : α → Run β) :
    (Run.timeout : Run α).bind f = Run.timeout := rfl

@[simp] theorem dupBytes_eq (data : List Byte) : dupBytes data = data := by
  simp [dupBytes, copy, make]

theorem sliceTo_of_le {b : List Byte} {hi : Nat} (h : hi ≤ b.length) :
    sliceTo b hi = Run.done (b.take hi) := by
  simp [sliceTo, h]

theorem sliceFrom_of_le {b : List Byte} {lo : Nat} (h : lo ≤ b.length) :
    sliceFrom b lo = Run.done (b.drop lo) := by
  simp [sliceFrom, h]

/-- Storing `got` right after the first `off = len(P)` bytes of `P ++ make k`. -/
theorem stored_append_make (P got : List Byte) (k : Nat) :
    stored (P ++ make k) P.length got = P ++ got ++ make (k - got.length) := by
  simp [stored, make, List.drop_append, List.drop_replicate]

/-! ## The in-memory reader -/

theorem BytesReader.unread_eq_nil_iff (r : BytesReader) :
    r.unread = [] ↔ r.s.length ≤ r.i := by
  simp [BytesReader.unread]

/-- One `Read` on a `bytes.Reader` that still has bytes: it delivers the first
`k` undelivered bytes (all of them when fewer remain) with a nil error. -/
theorem BytesReader.Read_of_lt (r : BytesReader) (k : Nat) (h : r.i < r.s.length) :
    r.Read k = (r.unread.take k, none,
      ({ s := r.s, i := r.i + (r.unread.take k).length } : BytesReader)) := by
  have h1 : ¬ r.i ≥ r.s.length := by omega
  simp only [BytesReader.Read, BytesReader.unread, h1, if_false]

/-- One `Read` on an exhausted `bytes.Reader`: `0, io.EOF`. -/
theorem BytesReader.Read_of_ge (r : BytesReader) (k : Nat) (h : r.s.length ≤ r.i) :
    r.Read k = ([], some Error.EOF, r) := by
  simp [BytesReader.Read, h]

theorem BytesReader.unread_advance (r : BytesReader) (k : Nat) :
    (r.advance k).unread = r.unread.drop k := by
  unfold BytesReader.advance
  split
  · rename_i h
    have : r.unread = [] := (r.unread_eq_nil_iff).2 h
    simp [this]
  · simp only [BytesReader.unread, List.length_take, List.length_drop]
    rw [← List.drop_drop]
    rcases Nat.le_total k (r.s.length - r.i) with hk | hk
    · simp [Nat.min_eq_left hk]
    · rw [Nat.min_eq_right hk]
      simp [List.drop_of_length_le, hk]

theorem BytesReader.advance_zero (r : BytesReader) : r.advance 0 = r := by
  unfold BytesReader.advance
  split <;> simp

theorem isEOF_eofError (unread : List Byte) : isEOF (eofError unread) = true := by
  unfold eofError isEOF
  split <;> decide

/-- The loop of `io.ReadAtLeast` stops as soon as a read reported an error. -/
theorem readAtLeastLoop_err {ρ : Type} [IoReader ρ] (bufLen min fuel : Nat) (r : ρ)
    (got : List Byte) (e : Error) :
    readAtLeastLoop bufLen min fuel r got (some e) = Run.done (got, some e, r) := by
  cases fuel <;> simp [readAtLeastLoop]

/-- Function `io.ReadAtLeast` on a `bytes.Reader`, asked for `rest > 0` bytes into a
buffer of that length: it delivers the first `rest` undelivered bytes, or all of
them together with `io.EOF` (none delivered) or `io.ErrUnexpectedEOF`. -/
theorem ReadAtLeast_bytes (r : BytesReader) (rest fuel : Nat) (hr : 0 < rest)
    (hf : 2 ≤ fuel) :
    ReadAtLeast fuel r rest rest =
      Run.done (r.unread.take rest,
        (if rest ≤ r.unread.length then none else some (eofError r.unread)),
        r.advance rest) := by
  obtain ⟨f, rfl⟩ : ∃ f, fuel = f + 2 := ⟨fuel - 2, by omega⟩
  rcases Nat.lt_or_ge r.i r.s.length with hi | hi
  · -- bytes remain
    have hne : r.unread ≠ [] := by
      rw [Ne, r.unread_eq_nil_iff]; omega
    have hadv : r.advance rest = { s := r.s, i := r.i + (r.unread.take rest).length } := by
      simp [BytesReader.advance, Nat.not_le.2 hi]
    have hlen : r.unread.length = r.s.length - r.i := by simp [BytesReader.unread]
    rcases Nat.lt_or_ge r.unread.length rest with hlt | hge
    · -- fewer than `rest`: a second read meets the end of the source
      have htake : r.unread.take rest = r.unread := List.take_of_length_le (by omega)
      have h2 : BytesReader.Read ({ s := r.s, i := r.i + r.unread.length } : BytesReader)
          (rest - r.unread.length) = ([], some Error.EOF, { s := r.s, i := r.i + r.unread.length }) :=
        BytesReader.Read_of_ge _ _ (by simp only; omega)
      have hpos : 0 < r.unread.length := List.length_pos.2 hne
      simp [ReadAtLeast, readAtLeastLoop, BytesReader.Read_of_lt r rest hi, hr, htake, hlt, h2,
        hadv, eofError, hne, Nat.not_le.2 hlt, hpos, readAtLeastLoop_err, Nat.not_lt.2 hlt.le]
    · have htl : (r.unread.take rest).length = rest := by
        simp [List.length_take, Nat.min_eq_left hge]
      simp [ReadAtLeast, readAtLeastLoop, BytesReader.Read_of_lt r rest hi, hr, htl, hge, hadv]
  · -- the source is exhausted
    have hnil : r.unread = [] := (r.unread_eq_nil_iff).2 hi
    have hadv : r.advance rest = r := by simp [BytesReader.advance, hi]
    simp [ReadAtLeast, readAtLeastLoop, BytesReader.Read_of_ge r rest hi, hr, hnil, hadv,
      eofError, Nat.not_le.2 hr]

/-! ## `Peek` on an in-memory source -/

theorem content_afterPeek (s : Stream BytesReader) (n : Nat) :
    content (afterPeek s n) = content s := by
  simp [content, afterPeek, BytesReader.unread_advance]

theorem afterPeek_of_le (s : Stream BytesReader) (n : Nat) (h : n ≤ s.Buf.length) :
    afterPeek s n = s := by
  simp [afterPeek, Nat.sub_eq_zero_of_le h, BytesReader.advance_zero]

theorem afterPeek_Buf_of_ge (s : Stream BytesReader) (n : Nat) (h : (content s).length ≤ n) :
    (afterPeek s n).Buf = content s := by
  simp only [content, List.length_append] at h
  simp only [afterPeek, content]
  rw [List.take_of_length_le (by omega)]

theorem length_content (s : Stream BytesReader) :
    (content s).length = s.Buf.length + s.Reader.unread.length := by
  simp [content]

/-- Call `Peek(n)` on an in-memory source, in every state: it returns the first `n`
bytes of the content when there are that many and an end-of-input error
otherwise, and leaves `afterPeek s n`. -/
theorem Peek_bytes (s : Stream BytesReader) (n fuel : Nat) (hf : 2 ≤ fuel) :
    Peek fuel s n =
      Run.done ((if n ≤ (content s).length then Except.ok ((content s).take n)
        else Except.error (eofError s.Reader.unread)), afterPeek s n) := by
  rcases Nat.lt_or_ge s.Buf.length n with hlt | hge
  · have hrest : 0 < n - s.Buf.length := by omega
    have hsl : sliceFrom (s.Buf ++ make (n - s.Buf.length)) s.Buf.length
        = Run.done (make (n - s.Buf.length)) := by
      rw [sliceFrom_of_le (by simp)]; simp
    have hml : (make (n - s.Buf.length)).length = n - s.Buf.length := by simp [make]
    simp only [Peek, hlt, if_true, hsl, Run.bind_done, hml,
      ReadAtLeast_bytes s.Reader _ fuel hrest hf, stored_append_make]
    rcases Nat.lt_or_ge s.Reader.unread.length (n - s.Buf.length) with hu | hu
    · have hn : ¬ n ≤ (content s).length := by rw [length_content]; omega
      have htake : s.Reader.unread.take (n - s.Buf.length) = s.Reader.unread :=
        List.take_of_length_le (by omega)
      simp only [Nat.not_le.2 hu, hn, if_false, htake]
      rw [sliceTo_of_le (by simp)]
      have h3 : List.take (s.Buf.length + s.Reader.unread.length)
          (s.Buf ++ s.Reader.unread ++ make (n - s.Buf.length - s.Reader.unread.length))
          = s.Buf ++ s.Reader.unread := by
        rw [List.take_append_of_le_length (by simp), List.take_of_length_le (by simp)]
      simp only [h3, Run.bind_done, afterPeek, htake]
    · have hn : n ≤ (content s).length := by rw [length_content]; omega
      have htl : (s.Reader.unread.take (n - s.Buf.length)).length = n - s.Buf.length := by
        simp [List.length_take, Nat.min_eq_left hu]
      simp only [hu, hn, if_true, htl, Nat.sub_self]
      rw [sliceTo_of_le (by simp [make, htl]; omega)]
      have hmk : make 0 = [] := rfl
      simp only [hmk, List.append_nil, Run.bind_done, dupBytes_eq, afterPeek, content]
      rw [List.take_of_length_le (by simp [htl]; omega), List.take_append_eq_append_take,
        List.take_of_length_le (Nat.le_of_lt hlt)]
  · have hn : n ≤ (content s).length := by rw [length_content]; omega
    have hn1 : n ≤ (s.Buf ++ s.Reader.unread).length := hn
    simp only [Peek, Nat.not_lt.2 hge, if_false, sliceTo_of_le hge, Run.bind_done, dupBytes_eq,
      if_true, afterPeek_of_le s n hge, content, List.take_append_of_le_length hge, hn1]

/-- Whatever the reader, `Peek(n)` with `n <= len(Buf)` returns the first `n`
pending bytes and leaves the stream as it is, for every bound on the loops:
the reader is not called. -/
theorem Peek_of_le {ρ : Type} [IoReader ρ] (fuel : Nat) (s : Stream ρ) (n : Nat)
    (h : n ≤ s.Buf.length) :
    Peek fuel s n = Run.done (Except.ok (s.Buf.take n), s) := by
  simp only [Peek, Nat.not_lt.2 h, if_false, sliceTo_of_le h, Run.bind_done, dupBytes_eq]

theorem afterPeek_Buf_of_le (s : Stream BytesReader) (n : Nat) (h : s.Buf.length ≤ n) :
    (afterPeek s n).Buf = (content s).take n := by
  simp only [afterPeek, content]
  rw [List.take_append_eq_append_take, List.take_of_length_le h]

theorem take_afterPeek_Buf (s : Stream BytesReader) (n : Nat) :
    (afterPeek s n).Buf.take n = (content s).take n := by
  rcases Nat.le_total n s.Buf.length with h | h
  · rw [afterPeek_of_le s n h, content, List.take_append_of_le_length h]
  · rw [afterPeek_Buf_of_le s n h, List.take_take, Nat.min_self]

theorem length_afterPeek_Buf_ge (s : Stream BytesReader) (n : Nat)
    (h : n ≤ (content s).length) : n ≤ (afterPeek s n).Buf.length := by
  rcases Nat.le_total n s.Buf.length with h1 | h1
  · rw [afterPeek_of_le s n h1]; exact h1
  · rw [afterPeek_Buf_of_le s n h1, List.length_take, Nat.min_eq_left h]

/-- The content of a stream after its first `n` pending bytes are dropped. -/
theorem content_drop_Buf (s : Stream BytesReader) (n : Nat) (h : n ≤ s.Buf.length) :
    content { s with Buf := s.Buf.drop n } = (content s).drop n := by
  simp only [content]
  rw [List.drop_append_of_le_length h]

/-- Call `PeekUpTo(n)` on an in-memory source, in every state. -/
theorem PeekUpTo_bytes (s : Stream BytesReader) (n fuel : Nat) (hf : 2 ≤ fuel) :
    PeekUpTo fuel s n = Run.done (Except.ok ((content s).take n), afterPeek s n) := by
  have key : (sliceTo (afterPeek s n).Buf
      (if n ≥ (afterPeek s n).Buf.length then (afterPeek s n).Buf.length else n)).bind
        (fun d => Run.done ((Except.ok (dupBytes d) : Except Error (List Byte)), afterPeek s n))
      = Run.done (Except.ok ((content s).take n), afterPeek s n) := by
    rcases Nat.lt_or_ge n (afterPeek s n).Buf.length with h | h
    · rw [if_neg (Nat.not_le.2 h), sliceTo_of_le (Nat.le_of_lt h)]
      simp only [Run.bind_done, dupBytes_eq, take_afterPeek_Buf]
    · rw [if_pos h, sliceTo_of_le (Nat.le_refl _)]
      simp only [Run.bind_done, dupBytes_eq]
      rw [← take_afterPeek_Buf, List.take_length, List.take_of_length_le h]
  simp only [PeekUpTo, Peek_bytes s n fuel hf, Run.bind_done]
  by_cases hn : n ≤ (content s).length
  · simp only [hn, if_true]
    exact key
  · simp only [hn, if_false, isEOF_eofError, Bool.not_true, Bool.false_eq_true]
    exact key

/-- Call `Read(n)` on an in-memory source, in every state. -/
theorem Read_bytes (s : Stream BytesReader) (n fuel : Nat) (hf : 2 ≤ fuel) :
    Read fuel s n =
      if n ≤ (content s).length then
        Run.done (Except.ok ((content s).take n),
          { afterPeek s n with Buf := (afterPeek s n).Buf.drop n })
      else Run.done (Except.error (eofError s.Reader.unread), afterPeek s n) := by
  simp only [Read, Peek_bytes s n fuel hf, Run.bind_done]
  by_cases h : n ≤ (content s).length
  · simp only [h, if_true, sliceFrom_of_le (length_afterPeek_Buf_ge s n h), Run.bind_done]
  · simp only [h, if_false]

/-- Call `Skip(n)` on an in-memory source, in every state. -/
theorem Skip_bytes (s : Stream BytesReader) (n fuel : Nat) (hf : 2 ≤ fuel) :
    Skip fuel s n =
      if n ≤ (content s).length then
        Run.done (Except.ok (), { afterPeek s n with Buf := (afterPeek s n).Buf.drop n })
      else Run.done (Except.error (eofError s.Reader.unread), afterPeek s n) := by
  simp only [Skip, Peek_bytes s n fuel hf, Run.bind_done]
  by_cases h : n ≤ (content s).length
  · simp only [h, if_true, sliceFrom_of_le (length_afterPeek_Buf_ge s n h), Run.bind_done]
  · simp only [h, if_false]

/-- The content left by a successful `Read(n)` or `Skip(n)`. -/
theorem content_afterPeek_drop (s : Stream BytesReader) (n : Nat)
    (h : n ≤ (content s).length) :
    content { afterPeek s n with Buf := (afterPeek s n).Buf.drop n } = (content s).drop n := by
  rw [content_drop_Buf _ n (length_afterPeek_Buf_ge s n h), content_afterPeek]

/-- Call `IsEmpty` on an in-memory source, in every state. -/
theorem IsEmpty_bytes (s : Stream BytesReader) (fuel : Nat) (hf : 2 ≤ fuel) :
    IsEmpty fuel s =
      Run.done (Except.ok (decide (content s = [])),
        if s.Buf.length > 0 then s else afterPeek s 1) := by
  unfold IsEmpty
  split
  · rename_i h
    have : content s ≠ [] := by
      simp only [content, ne_eq, List.append_eq_nil, not_and]
      intro h1; rw [h1] at h; simp at h
    simp [this]
  · rename_i h
    simp only [Peek_bytes s 1 fuel hf, Run.bind_done]
    rcases Nat.eq_zero_or_pos (content s).length with h0 | h0
    · have hnil : content s = [] := List.length_eq_zero.1 h0
      simp [h0, hnil, isEOF_eofError]
    · have hne : content s ≠ [] := List.length_pos.1 h0
      have h1 : 1 ≤ (content s).length := h0
      simp [h1, hne]

/-! ## The fixed-size operations: `Peek`, `Read`, `Skip`, `PeekUpTo`, `IsEmpty` -/

/-- C1: on an in-memory source, in any state with pending bytes `Buf` and
undelivered bytes `unread`, `Peek(n)` with `n <= len(Buf) + len(unread)` returns
without error the first `n` bytes of the content, and the content afterwards is
the same; when `n <= len(Buf)` the stream (pending and source) is left as it
is, and this holds whatever the reader and the loop bound, so no read is
issued; `Peek(0)` returns the empty sequence in every state. -/
theorem Peek_returns_first_bytes (s : Stream BytesReader) (n fuel : Nat) (hf : 2 ≤ fuel)
    (hn : n ≤ s.Buf.length + s.Reader.unread.length) :
    (∃ s1, Peek fuel s n = Run.done (Except.ok ((s.Buf ++ s.Reader.unread).take n), s1) ∧
      content s1 = content s) ∧
    (n ≤ s.Buf.length → Peek fuel s n = Run.done (Except.ok (s.Buf.take n), s)) ∧
    (∀ (ρ : Type) (inst : IoReader ρ) (t : Stream ρ) (k f : Nat), k ≤ t.Buf.length →
      @Peek ρ inst f t k = Run.done (Except.ok (t.Buf.take k), t)) ∧
    Peek fuel s 0 = Run.done (Except.ok [], s) := by
  refine ⟨⟨afterPeek s n, ?_, content_afterPeek s n⟩, fun h => Peek_of_le fuel s n h,
    fun ρ inst t k f h => @Peek_of_le ρ inst f t k h, ?_⟩
  · rw [Peek_bytes s n fuel hf, length_content, if_pos hn]; rfl
  · rw [Peek_of_le fuel s 0 (Nat.zero_le _)]; rfl

/-- C3: on an in-memory source with content `C`, `Read(n)` with `n <= len(C)`
returns without error the first `n` bytes of `C`, which is what `Peek(n)`
returns in the same state, and the content afterwards is `C` without its first
`n` bytes. -/
theorem Read_consumes_first_bytes (s : Stream BytesReader) (n fuel : Nat) (hf : 2 ≤ fuel)
    (hn : n ≤ (content s).length) :
    ∃ s1 s2, Read fuel s n = Run.done (Except.ok ((content s).take n), s1) ∧
      Peek fuel s n = Run.done (Except.ok ((content s).take n), s2) ∧
      content s1 = (content s).drop n := by
  refine ⟨_, afterPeek s n, ?_, ?_, content_afterPeek_drop s n hn⟩
  · rw [Read_bytes s n fuel hf, if_pos hn]
  · rw [Peek_bytes s n fuel hf, if_pos hn]

/-- C10: on an in-memory source, in every state, `IsEmpty` returns without
error, and it returns true if and only if `Buf` is empty and the source has no
undelivered byte; the content is the same after the call. -/
theorem IsEmpty_iff_nothing_left (s : Stream BytesReader) (fuel : Nat) (hf : 2 ≤ fuel) :
    ∃ b s1, IsEmpty fuel s = Run.done (Except.ok b, s1) ∧
      (b = true ↔ s.Buf = [] ∧ s.Reader.unread = []) ∧
      content s1 = content s := by
  refine ⟨_, _, IsEmpty_bytes s fuel hf, ?_, ?_⟩
  · simp [content]
  · split
    · rfl
    · exact content_afterPeek s 1

/-! ## `bytes.Index` -/

/-- A result `i` of `Index`: `sep` stands at index `i` of `s`, inside `s`, and
at no smaller index. -/
theorem Index_some {s sep : List Byte} {i : Nat} (h : Index s sep = some i) :
    sep <+: s.drop i ∧ i + sep.length ≤ s.length ∧ ∀ j, j < i → ¬ sep <+: s.drop j := by
  induction s generalizing i with
  | nil =>
    unfold Index at h
    split at h
    · rename_i hs
      cases h
      subst hs
      simp
    · cases h
  | cons b t ih =>
    unfold Index at h
    split at h
    · rename_i hp
      cases h
      have hp1 : sep <+: b :: t := List.isPrefixOf_iff_prefix.1 hp
      refine ⟨by simpa using hp1, by simpa using hp1.length_le, fun j hj => absurd hj (Nat.not_lt_zero j)⟩
    · rename_i hp
      cases hi : Index t sep with
      | none => rw [hi] at h; cases h
      | some i1 =>
        rw [hi] at h
        cases h
        obtain ⟨h1, h2, h3⟩ := ih hi
        refine ⟨by simpa using h1, by simp only [List.length_cons]; omega, ?_⟩
        intro j hj
        cases j with
        | zero =>
          intro hc
          exact hp (List.isPrefixOf_iff_prefix.2 (by simpa using hc))
        | succ j1 =>
          have hj1 : j1 < i1 := by simpa using hj
          have := h3 j1 hj1
          simpa using this

/-- The result `-1` of `Index`: `sep` stands at no index of `s`. -/
theorem Index_none {s sep : List Byte} (h : Index s sep = none) (j : Nat) :
    ¬ sep <+: s.drop j := by
  induction s generalizing j with
  | nil =>
    unfold Index at h
    split at h
    · cases h
    · rename_i hs
      intro hc
      simp only [List.drop_nil, List.prefix_nil] at hc
      exact hs hc
  | cons b t ih =>
    unfold Index at h
    split at h
    · cases h
    · rename_i hp
      cases hi : Index t sep with
      | some i1 => rw [hi] at h; cases h
      | none =>
        cases j with
        | zero =>
          intro hc
          exact hp (List.isPrefixOf_iff_prefix.2 (by simpa using hc))
        | succ j1 =>
          have := ih hi j1
          simpa using this

/-- An occurrence of `sep` in `s` after the bytes `A`. -/
theorem prefix_drop_of_eq {s sep A B : List Byte} (h : s = A ++ sep ++ B) :
    sep <+: s.drop A.length := by
  subst h
  rw [List.append_assoc, List.drop_left]
  exact List.prefix_append _ _

/-- Function `Index` finds the first occurrence: if `s = A ++ sep ++ B` and no
occurrence of `sep` in `s` starts before the end of `A`, the result is `len(A)`. -/
theorem Index_eq_of_first {s sep A B : List Byte} (h : s = A ++ sep ++ B)
    (hfirst : ∀ A1 B1, s = A1 ++ sep ++ B1 → A.length ≤ A1.length) :
    Index s sep = some A.length := by
  have hocc := prefix_drop_of_eq h
  cases hi : Index s sep with
  | none => exact absurd hocc (Index_none hi A.length)
  | some i =>
    obtain ⟨h1, h2, h3⟩ := Index_some hi
    obtain ⟨B1, hB1⟩ := h1
    have hs : s = s.take i ++ sep ++ B1 := by
      rw [List.append_assoc, hB1, List.take_append_drop]
    have hle := hfirst _ _ hs
    rw [List.length_take, Nat.min_eq_left (by omega)] at hle
    rcases Nat.lt_or_ge A.length i with hlt | hge
    · exact absurd hocc (h3 _ hlt)
    · congr 1; omega

/-- Function `Index` answers `-1` exactly when `sep` does not occur in `s`. -/
theorem Index_eq_none_iff {s sep : List Byte} : Index s sep = none ↔ ¬ sep <:+: s := by
  constructor
  · intro h hc
    obtain ⟨A, B, hAB⟩ := hc
    exact Index_none h A.length (prefix_drop_of_eq hAB.symm)
  · intro h
    cases hi : Index s sep with
    | none => rfl
    | some i =>
      exfalso
      obtain ⟨⟨B1, hB1⟩, _, _⟩ := Index_some hi
      exact h ⟨s.take i, B1, by rw [List.append_assoc, hB1, List.take_append_drop]⟩

/-- A match found in the pending bytes is the first match in the whole content. -/
theorem Index_append_of_some {P sep : List Byte} {i : Nat} (R : List Byte)
    (h : Index P sep = some i) : Index (P ++ R) sep = some i := by
  obtain ⟨⟨B1, hB1⟩, h2, h3⟩ := Index_some h
  have hP : P = P.take i ++ sep ++ B1 := by
    rw [List.append_assoc, hB1, List.take_append_drop]
  have hlen : (P.take i).length = i := by
    rw [List.length_take, Nat.min_eq_left (by omega)]
  have hPR : P ++ R = P.take i ++ sep ++ (B1 ++ R) := by
    rw [← List.append_assoc, ← hP]
  have := @Index_eq_of_first (P ++ R) sep (P.take i) (B1 ++ R) hPR (by
    intro A1 B2 hA1
    rw [hlen]
    by_contra hlt
    have hlt : A1.length < i := Nat.not_le.1 hlt
    have hpre : sep <+: (P ++ R).drop A1.length := prefix_drop_of_eq hA1
    rw [List.drop_append_of_le_length (by omega)] at hpre
    have hpre2 : P.drop A1.length <+: P.drop A1.length ++ R := List.prefix_append _ _
    have hl : sep.length ≤ (P.drop A1.length).length := by
      rw [List.length_drop]; omega
    exact h3 _ hlt (List.prefix_of_prefix_length_le hpre hpre2 hl))
  rw [this, hlen]

/-! ## `PeekUntil` and the operations built on it -/

theorem IoReader_Read_bytes (r : BytesReader) (k : Nat) :
    IoReader.Read r k = BytesReader.Read r k := rfl

/-- One growth step of `PeekUntil` on an in-memory source that still has
bytes: the buffer after the read of up to 4096 bytes. -/
theorem sliceTo_stored_chunk (P got : List Byte) :
    sliceTo (stored (P ++ make 4096) P.length got) (P.length + got.length)
      = Run.done (P ++ got) := by
  rw [stored_append_make, sliceTo_of_le (by simp)]
  rw [List.take_append_of_le_length (by simp), List.take_of_length_le (by simp)]

/-- Call `PeekUntil(delim)` on an in-memory source, in every state: the result is
decided by `bytes.Index` on the whole content, the content is unchanged, the
pending bytes only grow, and a match lies within the pending bytes afterwards. -/
theorem PeekUntil_bytes (delim : List Byte) :
    ∀ (fuel : Nat) (s : Stream BytesReader), s.Reader.unread.length + 1 ≤ fuel →
      ∃ s1, PeekUntil fuel s delim =
          Run.done (Except.ok ((Index (content s) delim).map fun i => (content s).take i), s1) ∧
        content s1 = content s ∧ s.Buf <+: s1.Buf ∧
        (∀ i, Index (content s) delim = some i → i + delim.length ≤ s1.Buf.length) ∧
        (Index (content s) delim = none → s1.Buf = content s) := by
  intro fuel
  induction fuel with
  | zero => intro s h; omega
  | succ fuel ih =>
    intro s hf
    cases hI : Index s.Buf delim with
    | some idx =>
      obtain ⟨_, h2, _⟩ := Index_some hI
      have hC : Index (content s) delim = some idx := Index_append_of_some _ hI
      refine ⟨s, ?_, rfl, List.prefix_refl _, ?_, ?_⟩
      · simp only [PeekUntil, hI, sliceTo_of_le (show idx ≤ s.Buf.length by omega),
          Run.bind_done, dupBytes_eq, hC, Option.map_some']
        rw [content, List.take_append_of_le_length (by omega)]
      · intro i hi
        rw [hC] at hi
        cases hi
        exact h2
      · intro hn
        rw [hC] at hn
        cases hn
    | none =>
      have hsl : sliceFrom (s.Buf ++ make 4096) s.Buf.length = Run.done (make 4096) := by
        rw [sliceFrom_of_le (by simp)]; simp
      have hml : (make 4096).length = 4096 := List.length_replicate _ _
      rcases Nat.lt_or_ge s.Reader.i s.Reader.s.length with hi | hi
      · -- the source delivers a chunk and the loop goes on
        have hadv : s.Reader.advance 4096 =
            { s := s.Reader.s, i := s.Reader.i + (s.Reader.unread.take 4096).length } := by
          simp [BytesReader.advance, Nat.not_le.2 hi]
        have hpos : 0 < s.Reader.unread.length := by
          simp only [BytesReader.unread, List.length_drop]; omega
        have hnp : ¬ 4096 < (s.Reader.unread.take 4096).length := by
          rw [List.length_take]; omega
        have hstep : PeekUntil (fuel + 1) s delim =
            PeekUntil fuel ⟨s.Reader.advance 4096, s.Buf ++ s.Reader.unread.take 4096⟩ delim := by
          simp only [PeekUntil, hI, hsl, Run.bind_done, hml, IoReader_Read_bytes,
            BytesReader.Read_of_lt s.Reader 4096 hi, hnp, if_false, sliceTo_stored_chunk, hadv]
        have hcont : content ⟨s.Reader.advance 4096, s.Buf ++ s.Reader.unread.take 4096⟩
            = content s := by
          simp [content, BytesReader.unread_advance]
        obtain ⟨s1, h1, h2, h3, h4, h5⟩ := ih ⟨s.Reader.advance 4096, s.Buf ++ s.Reader.unread.take 4096⟩ (by
          simp only [BytesReader.unread_advance, List.length_drop]; omega)
        rw [hcont] at h1 h2 h4 h5
        refine ⟨s1, by rw [hstep, h1], h2, ?_, h4, h5⟩
        exact List.IsPrefix.trans (List.prefix_append _ _) h3
      · -- the source is exhausted: `0, io.EOF`, no match
        have hnil : s.Reader.unread = [] := (s.Reader.unread_eq_nil_iff).2 hi
        have hC : content s = s.Buf := by simp [content, hnil]
        have hs : ({ Reader := s.Reader, Buf := s.Buf } : Stream BytesReader) = s := rfl
        refine ⟨s, ?_, rfl, List.prefix_refl _, ?_, fun _ => hC.symm⟩
        · have h0 := sliceTo_stored_chunk s.Buf []
          simp only [List.length_nil, Nat.add_zero, List.append_nil] at h0
          simp only [PeekUntil, hI, hsl, Run.bind_done, hml, IoReader_Read_bytes,
            BytesReader.Read_of_ge s.Reader 4096 hi, List.length_nil, Nat.not_lt_zero, if_false,
            Nat.add_zero, h0, hC, Option.map_none', hs]
          rfl
        · intro i hi2
          rw [hC, hI] at hi2
          cases hi2

/-- A result `i` of `Index` splits `C` at the first occurrence of `sep`. -/
theorem first_occurrence_of_Index {C sep : List Byte} {i : Nat} (h : Index C sep = some i) :
    ∃ B, C = C.take i ++ sep ++ B ∧ (C.take i).length = i ∧ C.drop i = sep ++ B ∧
      ∀ A1 B1, C = A1 ++ sep ++ B1 → (C.take i).length ≤ A1.length := by
  obtain ⟨⟨B, hB⟩, h2, h3⟩ := Index_some h
  have hlen : (C.take i).length = i := by
    rw [List.length_take, Nat.min_eq_left (by omega)]
  refine ⟨B, ?_, hlen, hB.symm, ?_⟩
  · rw [List.append_assoc, hB, List.take_append_drop]
  · intro A1 B1 hA1
    rw [hlen]
    by_contra hlt
    exact h3 _ (Nat.not_le.1 hlt) (prefix_drop_of_eq hA1)

/-- When `sep` occurs in `C`, `Index` returns an index. -/
theorem Index_of_infix {C sep : List Byte} (h : sep <:+: C) : ∃ i, Index C sep = some i := by
  cases hI : Index C sep with
  | none => exact absurd h (Index_eq_none_iff.1 hI)
  | some i => exact ⟨i, rfl⟩

/-- C5: on an in-memory source with content `C`, for every delimiter `d`: if
`d` occurs in `C`, `PeekUntil(d)` returns without error a non-nil sequence, the
bytes of `C` before the first occurrence of `d`; it is the non-nil empty
sequence when `d` is empty or stands at the front of `C`; if `d` does not occur
in `C`, it returns nil with no error.  In each case the content afterwards is
still `C`. -/
theorem PeekUntil_first_occurrence (s : Stream BytesReader) (d : List Byte) (fuel : Nat)
    (hf : s.Reader.unread.length + 1 ≤ fuel) :
    (d <:+: content s →
      ∃ A B s1, content s = A ++ d ++ B ∧
        (∀ A1 B1, content s = A1 ++ d ++ B1 → A.length ≤ A1.length) ∧
        PeekUntil fuel s d = Run.done (Except.ok (some A), s1) ∧ content s1 = content s) ∧
    (d <+: content s →
      ∃ s1, PeekUntil fuel s d = Run.done (Except.ok (some []), s1) ∧ content s1 = content s) ∧
    (¬ d <:+: content s →
      ∃ s1, PeekUntil fuel s d = Run.done (Except.ok none, s1) ∧ content s1 = content s) := by
  obtain ⟨s1, h1, h2, _, _, _⟩ := PeekUntil_bytes d fuel s hf
  refine ⟨?_, ?_, ?_⟩
  · intro hocc
    obtain ⟨i, hI⟩ := Index_of_infix hocc
    obtain ⟨B, hB, _, _, hfirst⟩ := first_occurrence_of_Index hI
    refine ⟨(content s).take i, B, s1, hB, hfirst, ?_, h2⟩
    rw [h1, hI]; rfl
  · intro hpre
    obtain ⟨B, hB⟩ := hpre
    have hI : Index (content s) d = some ([] : List Byte).length :=
      Index_eq_of_first (A := []) (B := B) (by simpa using hB.symm) (fun _ _ _ => Nat.zero_le _)
    refine ⟨s1, ?_, h2⟩
    rw [h1, hI]; rfl
  · intro hno
    refine ⟨s1, ?_, h2⟩
    rw [h1, Index_eq_none_iff.2 hno]; rfl

/-- C7: on an in-memory source with content `C`, for every delimiter `d`: if
`d` occurs in `C`, with `C = A ++ d ++ B` at its first occurrence,
`ReadUntilAndSkip(d)` returns `A` (non-nil) without error and the content
afterwards is `B`; if `d` does not occur in `C`, it returns nil with no error
and the content is still `C`. -/
theorem ReadUntilAndSkip_consumes_delim (s : Stream BytesReader) (d : List Byte) (fuel : Nat)
    (hf : s.Reader.unread.length + 1 ≤ fuel) :
    (d <:+: content s →
      ∃ A B s1, content s = A ++ d ++ B ∧
        (∀ A1 B1, content s = A1 ++ d ++ B1 → A.length ≤ A1.length) ∧
        ReadUntilAndSkip fuel s d = Run.done (Except.ok (some A), s1) ∧ content s1 = B ∧
        (content s1).length + (A.length + d.length) = (content s).length) ∧
    (¬ d <:+: content s →
      ∃ s1, ReadUntilAndSkip fuel s d = Run.done (Except.ok none, s1) ∧
        content s1 = content s) := by
  obtain ⟨s1, h1, h2, _, h4, _⟩ := PeekUntil_bytes d fuel s hf
  refine ⟨?_, ?_⟩
  · intro hocc
    obtain ⟨i, hI⟩ := Index_of_infix hocc
    obtain ⟨B, hB, hlen, hdrop, hfirst⟩ := first_occurrence_of_Index hI
    have hle : i + d.length ≤ s1.Buf.length := h4 i hI
    have hcont : content { s1 with Buf := s1.Buf.drop (i + d.length) } = B := by
      rw [content_drop_Buf s1 _ hle, h2, ← List.drop_drop, hdrop, List.drop_left]
    refine ⟨(content s).take i, B, _, hB, hfirst, ?_, hcont, ?_⟩
    · simp only [ReadUntilAndSkip, h1, hI, Option.map_some', Run.bind_done, hlen,
        sliceFrom_of_le hle]
    · rw [hcont, hlen]
      have := congrArg List.length hB
      simp only [List.length_append, hlen] at this
      omega
  · intro hno
    refine ⟨s1, ?_, h2⟩
    simp only [ReadUntilAndSkip, h1, Index_eq_none_iff.2 hno, Option.map_none', Run.bind_done]

/-- C8: on an in-memory source with content `C`, for every delimiter `d`: if
`d` occurs in `C`, with `C = A ++ d ++ B` at its first occurrence,
`ReadUntil(d)` returns `A` (non-nil) without error and the content afterwards
is `d ++ B`; if `d` does not occur in `C`, it returns nil with no error and the
content is still `C`. -/
theorem ReadUntil_keeps_delim (s : Stream BytesReader) (d : List Byte) (fuel : Nat)
    (hf : s.Reader.unread.length + 1 ≤ fuel) :
    (d <:+: content s →
      ∃ A B s1, content s = A ++ d ++ B ∧
        (∀ A1 B1, content s = A1 ++ d ++ B1 → A.length ≤ A1.length) ∧
        ReadUntil fuel s d = Run.done (Except.ok (some A), s1) ∧ content s1 = d ++ B) ∧
    (¬ d <:+: content s →
      ∃ s1, ReadUntil fuel s d = Run.done (Except.ok none, s1) ∧ content s1 = content s) := by
  obtain ⟨s1, h1, h2, _, h4, _⟩ := PeekUntil_bytes d fuel s hf
  refine ⟨?_, ?_⟩
  · intro hocc
    obtain ⟨i, hI⟩ := Index_of_infix hocc
    obtain ⟨B, hB, hlen, hdrop, hfirst⟩ := first_occurrence_of_Index hI
    have hle : i ≤ s1.Buf.length := Nat.le_trans (Nat.le_add_right _ _) (h4 i hI)
    have hcont : content { s1 with Buf := s1.Buf.drop i } = d ++ B := by
      rw [content_drop_Buf s1 _ hle, h2, hdrop]
    refine ⟨(content s).take i, B, _, hB, hfirst, ?_, hcont⟩
    simp only [ReadUntil, h1, hI, Option.map_some', Run.bind_done, hlen, sliceFrom_of_le hle]
  · intro hno
    refine ⟨s1, ?_, h2⟩
    simp only [ReadUntil, h1, Index_eq_none_iff.2 hno, Option.map_none', Run.bind_done]

/-! ## `ReadWhile` -/

/-- The inner loop of `ReadWhile` appends to `data` the longest prefix of the
block whose bytes satisfy `fn`, and reports the index of the first byte that
fails `fn`, when there is one. -/
theorem rangeBlock_eq (fn : Byte → Bool) (block : List Byte) (i : Nat) (data : List Byte) :
    rangeBlock fn block i data =
      (data ++ block.takeWhile fn,
        if (block.takeWhile fn).length < block.length
        then some (i + (block.takeWhile fn).length) else none) := by
  induction block generalizing i data with
  | nil => simp [rangeBlock]
  | cons b bs ih =>
    cases hb : fn b with
    | false => simp [rangeBlock, hb, List.takeWhile_cons]
    | true =>
      simp only [rangeBlock, hb, Bool.not_true, Bool.false_eq_true, if_false, ih,
        List.takeWhile_cons, if_true, List.length_cons, List.append_assoc, List.singleton_append,
        Nat.add_lt_add_iff_right]
      congr 1
      split
      · congr 1; omega
      · rfl

theorem drop_length_takeWhile (p : Byte → Bool) (l : List Byte) :
    l.drop (l.takeWhile p).length = l.dropWhile p := by
  have h := List.takeWhile_append_dropWhile p l
  calc l.drop (l.takeWhile p).length
      = (l.takeWhile p ++ l.dropWhile p).drop (l.takeWhile p).length := by rw [h]
    _ = l.dropWhile p := List.drop_left _ _

theorem length_take_le_afterPeek (s : Stream BytesReader) (n : Nat) :
    ((content s).take n).length ≤ (afterPeek s n).Buf.length := by
  rw [← take_afterPeek_Buf, List.length_take]
  exact Nat.min_le_right _ _

theorem drop_length_take (l : List Byte) (n : Nat) : l.drop (l.take n).length = l.drop n := by
  calc l.drop (l.take n).length
      = (l.take n ++ l.drop n).drop (l.take n).length := by rw [List.take_append_drop]
    _ = l.drop n := List.drop_left _ _

/-- The loop of `ReadWhile` on an in-memory source, started with `data`
accumulated: it appends the longest prefix of the content whose bytes satisfy
`fn` and consumes exactly that prefix. -/
theorem readWhileLoop_bytes (fn : Byte → Bool) (fuel : Nat) (hf : 2 ≤ fuel) :
    ∀ (k : Nat) (s : Stream BytesReader) (data : List Byte), (content s).length + 1 ≤ k →
      ∃ s1, readWhileLoop fuel fn k s data =
          Run.done (Except.ok (data ++ (content s).takeWhile fn), s1) ∧
        content s1 = (content s).dropWhile fn := by
  intro k
  induction k with
  | zero => intro s data h; omega
  | succ k ih =>
    intro s data hk
    have hC : (content s).take blockSize ++ (content s).drop blockSize = content s :=
      List.take_append_drop _ _
    have hble : ((content s).take blockSize).length ≤ (afterPeek s blockSize).Buf.length :=
      length_take_le_afterPeek s blockSize
    by_cases hb : ((content s).take blockSize).length = 0
    · -- nothing left
      have hnil : content s = [] := by
        have h0 : (content s).take blockSize = [] := List.length_eq_zero.1 hb
        rw [← hC, h0, List.nil_append]
        rw [List.take_eq_nil_iff] at h0
        rcases h0 with h0 | h0
        · exact absurd h0 (by decide)
        · rw [h0]; rfl
      refine ⟨afterPeek s blockSize, ?_, ?_⟩
      · simp only [readWhileLoop, PeekUpTo_bytes s blockSize fuel hf, Run.bind_done, hb, if_true]
        rw [hnil]; simp
      · rw [content_afterPeek, hnil]; rfl
    · by_cases htw : (((content s).take blockSize).takeWhile fn).length
          < ((content s).take blockSize).length
      · -- a byte of the block fails `fn`
        have hne : ¬ (((content s).take blockSize).takeWhile fn).length
            = ((content s).take blockSize).length := Nat.ne_of_lt htw
        have htake : (content s).takeWhile fn = ((content s).take blockSize).takeWhile fn := by
          conv_lhs => rw [← hC]
          rw [List.takeWhile_append, if_neg hne]
        have hle : (((content s).take blockSize).takeWhile fn).length
            ≤ (afterPeek s blockSize).Buf.length := Nat.le_trans (Nat.le_of_lt htw) hble
        refine ⟨⟨(afterPeek s blockSize).Reader, (afterPeek s blockSize).Buf.drop
          (((content s).take blockSize).takeWhile fn).length⟩, ?_, ?_⟩
        · simp only [readWhileLoop, PeekUpTo_bytes s blockSize fuel hf, Run.bind_done, hb,
            if_false, rangeBlock_eq, htw, if_true, Nat.zero_add, sliceFrom_of_le hle, htake]
        · rw [content_drop_Buf _ _ hle, content_afterPeek, ← htake, drop_length_takeWhile]
      · -- the whole block satisfies `fn`
        have hall : ((content s).take blockSize).takeWhile fn = (content s).take blockSize := by
          have hpre := List.takeWhile_prefix fn (l := (content s).take blockSize)
          exact hpre.eq_of_length_le (Nat.not_lt.1 htw)
        have hmem : ∀ a ∈ (content s).take blockSize, fn a = true :=
          List.takeWhile_eq_self_iff.1 hall
        have hcont : content { afterPeek s blockSize with
            Buf := (afterPeek s blockSize).Buf.drop ((content s).take blockSize).length }
            = (content s).drop blockSize := by
          rw [content_drop_Buf _ _ hble, content_afterPeek, drop_length_take]
        have hlen : ((content s).drop blockSize).length + 1 ≤ k := by
          have := congrArg List.length hC
          rw [List.length_append] at this
          omega
        obtain ⟨s1, h1, h2⟩ := ih _ (data ++ (content s).take blockSize) (by rw [hcont]; exact hlen)
        rw [hcont] at h1 h2
        refine ⟨s1, ?_, ?_⟩
        · simp only [readWhileLoop, PeekUpTo_bytes s blockSize fuel hf, Run.bind_done, hb,
            if_false, rangeBlock_eq, hall, lt_self_iff_false, sliceFrom_of_le hble]
          rw [h1]
          conv_rhs => rw [← hC, List.takeWhile_append_of_pos hmem]
          simp
        · rw [h2]
          conv_rhs => rw [← hC, List.dropWhile_append_of_pos hmem]

/-- C6: on an in-memory source with content `C` of any length and for every
predicate `fn` on bytes, `ReadWhile(fn)` returns without error the longest
prefix `A` of `C` whose bytes all satisfy `fn`, and the content afterwards is
`C` without that prefix: `C = A ++ rest`, every byte of `A` satisfies `fn`, and
the first byte of `rest`, if there is one, fails `fn`. -/
theorem ReadWhile_longest_prefix (s : Stream BytesReader) (fn : Byte → Bool) (fuel : Nat)
    (hf : (content s).length + 2 ≤ fuel) :
    ∃ A s1, ReadWhile fuel s fn = Run.done (Except.ok A, s1) ∧
      content s = A ++ content s1 ∧
      (∀ b ∈ A, fn b = true) ∧
      (∀ b ∈ (content s1).head?, fn b = false) ∧
      A = (content s).takeWhile fn ∧
      (∀ A1, A1 <+: content s → (∀ b ∈ A1, fn b = true) → A1.length ≤ A.length) := by
  obtain ⟨s1, h1, h2⟩ := readWhileLoop_bytes fn fuel (by omega) fuel s [] (by omega)
  refine ⟨(content s).takeWhile fn, s1, ?_, ?_, ?_, ?_, rfl, ?_⟩
  · simpa [ReadWhile] using h1
  · rw [h2, List.takeWhile_append_dropWhile]
  · intro b hb
    exact List.mem_takeWhile_imp hb
  · intro b hb
    rw [h2] at hb
    cases hd : (content s).dropWhile fn with
    | nil => rw [hd] at hb; cases hb
    | cons x xs =>
      rw [hd] at hb
      simp only [List.head?_cons, Option.mem_def, Option.some.injEq] at hb
      subst hb
      have := List.head_dropWhile_not fn (content s) (by rw [hd]; exact List.cons_ne_nil _ _)
      simpa [hd] using this
  · intro A1 hpre hA1
    obtain ⟨B1, hB1⟩ := hpre
    rw [← hB1, List.takeWhile_append_of_pos (by simpa using hA1), List.length_append]
    omega

/-! ## The theorems at concrete streams -/

/-- Call `Peek(3)` with one pending byte `9` over the source `1 2 3 4 5` read up
to index 1. -/
theorem Peek_returns_first_bytes_witness :
    2 ≤ 2 ∧ 3 ≤ 1 + 4 ∧
    ∃ s1, Peek 2 (⟨⟨[1, 2, 3, 4, 5], 1⟩, [9]⟩ : Stream BytesReader) 3
        = Run.done (Except.ok [9, 2, 3], s1) ∧
      content s1 = [9, 2, 3, 4, 5] :=
  ⟨by decide, by decide,
    (Peek_returns_first_bytes ⟨⟨[1, 2, 3, 4, 5], 1⟩, [9]⟩ 3 2 (by decide) (by decide)).1⟩

/-- Call `Read(3)` on the same stream. -/
theorem Read_consumes_first_bytes_witness :
    2 ≤ 2 ∧ 3 ≤ 5 ∧
    ∃ s1 s2, Read 2 (⟨⟨[1, 2, 3, 4, 5], 1⟩, [9]⟩ : Stream BytesReader) 3
        = Run.done (Except.ok [9, 2, 3], s1) ∧
      Peek 2 (⟨⟨[1, 2, 3, 4, 5], 1⟩, [9]⟩ : Stream BytesReader) 3
        = Run.done (Except.ok [9, 2, 3], s2) ∧
      content s1 = [4, 5] :=
  ⟨by decide, by decide,
    Read_consumes_first_bytes ⟨⟨[1, 2, 3, 4, 5], 1⟩, [9]⟩ 3 2 (by decide) (by decide)⟩

/-- Call `PeekUntil` of the delimiter `2 4` on the source `1 2 4`. -/
theorem PeekUntil_first_occurrence_witness :
    3 + 1 ≤ 4 ∧
    ∃ A B s1, ([1, 2, 4] : List Byte) = A ++ [2, 4] ++ B ∧
      (∀ A1 B1, ([1, 2, 4] : List Byte) = A1 ++ [2, 4] ++ B1 → A.length ≤ A1.length) ∧
      PeekUntil 4 (NewStreamBytes [1, 2, 4]) [2, 4] = Run.done (Except.ok (some A), s1) ∧
      content s1 = [1, 2, 4] :=
  ⟨by decide,
    (PeekUntil_first_occurrence (NewStreamBytes [1, 2, 4]) [2, 4] 4 (by decide)).1
      ⟨[1], [], rfl⟩⟩

/-- Call `ReadWhile` of the even bytes on the source `2 4 5`. -/
theorem ReadWhile_longest_prefix_witness :
    3 + 2 ≤ 5 ∧
    ∃ A s1, ReadWhile 5 (NewStreamBytes [2, 4, 5]) (fun b => b.val % 2 == 0)
        = Run.done (Except.ok A, s1) ∧
      ([2, 4, 5] : List Byte) = A ++ content s1 ∧
      (∀ b ∈ A, (b.val % 2 == 0) = true) ∧
      (∀ b ∈ (content s1).head?, (b.val % 2 == 0) = false) ∧
      A = [2, 4] ∧
      (∀ A1, A1 <+: ([2, 4, 5] : List Byte) → (∀ b ∈ A1, (b.val % 2 == 0) = true) →
        A1.length ≤ A.length) :=
  ⟨by decide,
    ReadWhile_longest_prefix (NewStreamBytes [2, 4, 5]) (fun b => b.val % 2 == 0) 5 (by decide)⟩

/-- Call `ReadUntilAndSkip` of the delimiter `2 4` on the source `1 2 4 7`. -/
theorem ReadUntilAndSkip_consumes_delim_witness :
    4 + 1 ≤ 5 ∧
    ∃ A B s1, ([1, 2, 4, 7] : List Byte) = A ++ [2, 4] ++ B ∧
      (∀ A1 B1, ([1, 2, 4, 7] : List Byte) = A1 ++ [2, 4] ++ B1 → A.length ≤ A1.length) ∧
      ReadUntilAndSkip 5 (NewStreamBytes [1, 2, 4, 7]) [2, 4]
        = Run.done (Except.ok (some A), s1) ∧
      content s1 = B ∧ (content s1).length + (A.length + 2) = 4 :=
  ⟨by decide,
    (ReadUntilAndSkip_consumes_delim (NewStreamBytes [1, 2, 4, 7]) [2, 4] 5 (by decide)).1
      ⟨[1], [7], rfl⟩⟩

/-- Call `ReadUntil` of the delimiter `2 4` on the source `1 2 4 7`. -/
theorem ReadUntil_keeps_delim_witness :
    4 + 1 ≤ 5 ∧
    ∃ A B s1, ([1, 2, 4, 7] : List Byte) = A ++ [2, 4] ++ B ∧
      (∀ A1 B1, ([1, 2, 4, 7] : List Byte) = A1 ++ [2, 4] ++ B1 → A.length ≤ A1.length) ∧
      ReadUntil 5 (NewStreamBytes [1, 2, 4, 7]) [2, 4] = Run.done (Except.ok (some A), s1) ∧
      content s1 = [2, 4] ++ B :=
  ⟨by decide,
    (ReadUntil_keeps_delim (NewStreamBytes [1, 2, 4, 7]) [2, 4] 5 (by decide)).1
      ⟨[1], [7], rfl⟩⟩

/-- Call `IsEmpty` on the source `1 2 3` after its three bytes were delivered and
consumed. -/
theorem IsEmpty_iff_nothing_left_witness :
    2 ≤ 2 ∧
    ∃ b s1, IsEmpty 2 (⟨⟨[1, 2, 3], 3⟩, []⟩ : Stream BytesReader) = Run.done (Except.ok b, s1) ∧
      (b = true ↔ ([] : List Byte) = [] ∧ BytesReader.unread ⟨[1, 2, 3], 3⟩ = []) ∧
      content s1 = [] :=
  ⟨by decide, IsEmpty_iff_nothing_left ⟨⟨[1, 2, 3], 3⟩, []⟩ 2 (by decide)⟩

/-! ## `ReadAll` -/

theorem Buf_unread_nil_of_content_nil {s : Stream BytesReader} (h : content s = []) :
    s.Buf = [] ∧ s.Reader.unread = [] := by
  simpa [content] using h

/-- The loop of `ReadAll` on an in-memory source, started with `buf`
accumulated: it appends the whole content and leaves nothing behind. -/
theorem readAllLoop_bytes (fuel : Nat) (hf : 2 ≤ fuel) :
    ∀ (k : Nat) (s : Stream BytesReader) (buf : List Byte), (content s).length + 1 ≤ k →
      ∃ s1, readAllLoop fuel k s buf = Run.done (Except.ok (buf ++ content s), s1) ∧
        s1.Buf = [] ∧ s1.Reader.unread = [] := by
  intro k
  induction k with
  | zero => intro s buf h; omega
  | succ k ih =>
    intro s buf hk
    have hC : (content s).take 4096 ++ (content s).drop 4096 = content s :=
      List.take_append_drop _ _
    have hble : ((content s).take 4096).length ≤ (afterPeek s 4096).Buf.length :=
      length_take_le_afterPeek s 4096
    have hcont : content ⟨(afterPeek s 4096).Reader,
        (afterPeek s 4096).Buf.drop ((content s).take 4096).length⟩ = (content s).drop 4096 := by
      rw [content_drop_Buf _ _ hble, content_afterPeek, drop_length_take]
    have hIs := IsEmpty_bytes ⟨(afterPeek s 4096).Reader,
          (afterPeek s 4096).Buf.drop ((content s).take 4096).length⟩ fuel hf
    rw [hcont] at hIs
    simp only [readAllLoop, PeekUpTo_bytes s 4096 fuel hf, Run.bind_done, sliceFrom_of_le hble,
      hIs]
    generalize hs3 : (if (⟨(afterPeek s 4096).Reader,
          (afterPeek s 4096).Buf.drop ((content s).take 4096).length⟩ : Stream BytesReader).Buf.length > 0
        then (⟨(afterPeek s 4096).Reader,
          (afterPeek s 4096).Buf.drop ((content s).take 4096).length⟩ : Stream BytesReader)
        else afterPeek ⟨(afterPeek s 4096).Reader,
          (afterPeek s 4096).Buf.drop ((content s).take 4096).length⟩ 1) = s3
    have hc3 : content s3 = (content s).drop 4096 := by
      rw [← hs3]
      split
      · exact hcont
      · rw [content_afterPeek, hcont]
    by_cases hnil : (content s).drop 4096 = []
    · refine ⟨s3, ?_, Buf_unread_nil_of_content_nil (hc3.trans hnil)⟩
      have : (content s).take 4096 = content s := by
        conv_rhs => rw [← hC, hnil, List.append_nil]
      simp [hnil, this]
    · have hlen : (content s3).length + 1 ≤ k := by
        rw [hc3]
        have h1 := congrArg List.length hC
        rw [List.length_append] at h1
        have h2 : 0 < ((content s).drop 4096).length := List.length_pos.2 hnil
        have h3 : 0 < ((content s).take 4096).length := by
          rw [List.length_take]
          rw [List.length_drop] at h2
          omega
        omega
      obtain ⟨s4, h4, h5⟩ := ih s3 (buf ++ (content s).take 4096) hlen
      refine ⟨s4, ?_, h5⟩
      simp only [hnil, decide_False, Bool.false_eq_true, if_false, h4, hc3, List.append_assoc, hC]

/-- Call `ReadAll` on an in-memory source, in every state. -/
theorem ReadAll_bytes (s : Stream BytesReader) (fuel : Nat) (hf : (content s).length + 2 ≤ fuel) :
    ∃ s1, ReadAll fuel s = Run.done (Except.ok (content s), s1) ∧
      s1.Buf = [] ∧ s1.Reader.unread = [] := by
  obtain ⟨s1, h1, h2⟩ := readAllLoop_bytes fuel (by omega) fuel s [] (by omega)
  exact ⟨s1, by simpa [ReadAll] using h1, h2⟩

/-- C11: on an in-memory source with content `C` of any length, `ReadAll`
returns `C` without error and leaves `Buf` empty and the source exhausted; a
second `ReadAll` right afterwards returns the empty sequence without error. -/
theorem ReadAll_returns_content (s : Stream BytesReader) (fuel : Nat)
    (hf : (content s).length + 2 ≤ fuel) :
    ∃ s1 s2, ReadAll fuel s = Run.done (Except.ok (content s), s1) ∧
      s1.Buf = [] ∧ s1.Reader.unread = [] ∧
      ReadAll fuel s1 = Run.done (Except.ok [], s2) ∧
      s2.Buf = [] ∧ s2.Reader.unread = [] := by
  obtain ⟨s1, h1, h2, h3⟩ := ReadAll_bytes s fuel hf
  have hc1 : content s1 = [] := by simp [content, h2, h3]
  obtain ⟨s2, h4, h5, h6⟩ := ReadAll_bytes s1 fuel (by rw [hc1]; simp only [List.length_nil]; omega)
  rw [hc1] at h4
  exact ⟨s1, s2, h1, h2, h3, h4, h5, h6⟩

/-! ## `SkipBytes`, the Peek family, repeated `Peek` -/

/-- Call `SkipBytes(bs)` on an in-memory source, in every state. -/
theorem SkipBytes_bytes (s : Stream BytesReader) (bs : List Byte) (fuel : Nat) (hf : 2 ≤ fuel) :
    SkipBytes fuel s bs =
      if bs.length ≤ (content s).length then
        if (content s).take bs.length = bs then
          Run.done (Except.ok true,
            ⟨(afterPeek s bs.length).Reader, (afterPeek s bs.length).Buf.drop bs.length⟩)
        else Run.done (Except.ok false, afterPeek s bs.length)
      else Run.done (Except.error (eofError s.Reader.unread), afterPeek s bs.length) := by
  simp only [SkipBytes, Peek_bytes s bs.length fuel hf]
  by_cases h : bs.length ≤ (content s).length
  · simp only [h, if_true, Run.bind_done]
    by_cases h2 : (content s).take bs.length = bs
    · simp only [h2, if_true, sliceFrom_of_le (length_afterPeek_Buf_ge s _ h), Run.bind_done]
    · simp only [h2, if_false]
  · simp only [h, if_false, Run.bind_done]

/-- C12: on an in-memory source with content `C` and for every pattern `bs`:
if `len(bs) > len(C)`, `SkipBytes(bs)` fails (the result `false` with an error)
and the content is still `C`; otherwise it returns no error, and true exactly
when `bs` is a prefix of `C` (always for the empty pattern); when it returns
true the first `len(bs)` bytes are consumed, when false nothing is. -/
theorem SkipBytes_consumes_matching_bytes (s : Stream BytesReader) (bs : List Byte) (fuel : Nat)
    (hf : 2 ≤ fuel) :
    ((content s).length < bs.length →
      ∃ e s1, SkipBytes fuel s bs = Run.done (Except.error e, s1) ∧ content s1 = content s) ∧
    (bs.length ≤ (content s).length →
      ∃ b s1, SkipBytes fuel s bs = Run.done (Except.ok b, s1) ∧
        (b = true ↔ bs <+: content s) ∧
        (b = true → content s1 = (content s).drop bs.length) ∧
        (b = false → content s1 = content s)) ∧
    (bs = [] → ∃ s1, SkipBytes fuel s bs = Run.done (Except.ok true, s1) ∧
      content s1 = content s) := by
  have hpre : (content s).take bs.length = bs ↔ bs <+: content s := by
    rw [List.prefix_iff_eq_take]
    exact eq_comm
  refine ⟨?_, ?_, ?_⟩
  · intro h
    refine ⟨eofError s.Reader.unread, afterPeek s bs.length, ?_, content_afterPeek s bs.length⟩
    rw [SkipBytes_bytes s bs fuel hf, if_neg (Nat.not_le.2 h)]
  · intro h
    by_cases h2 : (content s).take bs.length = bs
    · refine ⟨true, ⟨(afterPeek s bs.length).Reader, (afterPeek s bs.length).Buf.drop bs.length⟩,
        ?_, ?_, ?_, ?_⟩
      · rw [SkipBytes_bytes s bs fuel hf, if_pos h, if_pos h2]
      · simp only [true_iff]; exact hpre.1 h2
      · intro _; exact content_afterPeek_drop s bs.length h
      · intro hc; cases hc
    · refine ⟨false, afterPeek s bs.length, ?_, ?_, ?_, ?_⟩
      · rw [SkipBytes_bytes s bs fuel hf, if_pos h, if_neg h2]
      · simp only [Bool.false_eq_true, false_iff]
        exact fun hc => h2 (hpre.2 hc)
      · intro hc; cases hc
      · intro _; exact content_afterPeek s bs.length
  · intro h
    subst h
    refine ⟨⟨(afterPeek s 0).Reader, (afterPeek s 0).Buf.drop 0⟩, ?_, ?_⟩
    · rw [SkipBytes_bytes s [] fuel hf]
      simp only [List.length_nil, Nat.zero_le, if_true, List.take_zero]
    · simp only [List.drop_zero]
      exact content_afterPeek s 0

theorem Buf_prefix_afterPeek (s : Stream BytesReader) (n : Nat) :
    s.Buf <+: (afterPeek s n).Buf :=
  List.prefix_append _ _

theorem PeekLike_of_eq {α : Type} {s s1 : Stream BytesReader} {out : Run (α × Stream BytesReader)}
    {r : α} (h : out = Run.done (r, s1)) (hp : s.Buf <+: s1.Buf) (hc : content s1 = content s) :
    PeekLike s out :=
  ⟨r, s1, h, hp, hc⟩

/-- Call `StartsWithByte(b)` on an in-memory source, in every state. -/
theorem StartsWithByte_bytes (s : Stream BytesReader) (b : Byte) (fuel : Nat) (hf : 2 ≤ fuel) :
    ∃ r, StartsWithByte fuel s b = Run.done (r, afterPeek s 1) := by
  simp only [StartsWithByte, Peek_bytes s 1 fuel hf, Run.bind_done]
  by_cases h : 1 ≤ (content s).length
  · simp only [h, if_true]
    cases hc : content s with
    | nil => rw [hc] at h; simp at h
    | cons x xs => exact ⟨_, rfl⟩
  · simp only [h, if_false]
    exact ⟨_, rfl⟩

/-- C13: on an in-memory source, every operation of the Peek family (`Peek`,
`PeekUpTo`, `PeekUntil`, `PeekUntilByte`, `StartsWithBytes`, `StartsWithByte`,
`IsEmpty`), for every argument and in every state, whether it succeeds or
fails, returns with the former pending bytes a prefix of the pending bytes
afterwards and with the same content. -/
theorem Peek_family_only_grows_pending (s : Stream BytesReader) (n : Nat) (d bs : List Byte)
    (b : Byte) (fuel : Nat) (hf : s.Reader.unread.length + 2 ≤ fuel) :
    PeekLike s (Peek fuel s n) ∧ PeekLike s (PeekUpTo fuel s n) ∧
    PeekLike s (PeekUntil fuel s d) ∧ PeekLike s (PeekUntilByte fuel s b) ∧
    PeekLike s (StartsWithBytes fuel s bs) ∧ PeekLike s (StartsWithByte fuel s b) ∧
    PeekLike s (IsEmpty fuel s) := by
  have h2 : 2 ≤ fuel := by omega
  refine ⟨?_, ?_, ?_, ?_, ?_, ?_, ?_⟩
  · exact PeekLike_of_eq (Peek_bytes s n fuel h2) (Buf_prefix_afterPeek s n) (content_afterPeek s n)
  · exact PeekLike_of_eq (PeekUpTo_bytes s n fuel h2) (Buf_prefix_afterPeek s n)
      (content_afterPeek s n)
  · obtain ⟨s1, h1, hc, hp, _⟩ := PeekUntil_bytes d fuel s (by omega)
    exact PeekLike_of_eq h1 hp hc
  · obtain ⟨s1, h1, hc, hp, _⟩ := PeekUntil_bytes [b] fuel s (by omega)
    exact PeekLike_of_eq h1 hp hc
  · have : ∃ r, StartsWithBytes fuel s bs = Run.done (r, afterPeek s bs.length) := by
      simp only [StartsWithBytes, Peek_bytes s bs.length fuel h2, Run.bind_done]
      split <;> exact ⟨_, rfl⟩
    obtain ⟨r, hr⟩ := this
    exact PeekLike_of_eq hr (Buf_prefix_afterPeek s _) (content_afterPeek s _)
  · obtain ⟨r, hr⟩ := StartsWithByte_bytes s b fuel h2
    exact PeekLike_of_eq hr (Buf_prefix_afterPeek s _) (content_afterPeek s _)
  · refine PeekLike_of_eq (IsEmpty_bytes s fuel h2) ?_ ?_
    · split
      · exact List.prefix_refl _
      · exact Buf_prefix_afterPeek s 1
    · split
      · rfl
      · exact content_afterPeek s 1

theorem afterPeek_of_unread_nil (s : Stream BytesReader) (n : Nat) (h : s.Reader.unread = []) :
    afterPeek s n = s := by
  have hi : s.Reader.s.length ≤ s.Reader.i := (s.Reader.unread_eq_nil_iff).1 h
  simp [afterPeek, h, BytesReader.advance, hi]

/-- A second `Peek(n)` right after the first changes nothing more. -/
theorem afterPeek_idem (s : Stream BytesReader) (n : Nat) :
    afterPeek (afterPeek s n) n = afterPeek s n := by
  rcases Nat.le_total n (content s).length with h | h
  · exact afterPeek_of_le _ n (length_afterPeek_Buf_ge s n h)
  · apply afterPeek_of_unread_nil
    simp only [afterPeek, BytesReader.unread_advance]
    rw [length_content] at h
    exact List.drop_of_length_le (by omega)

/-- C17: on an in-memory source, in every state and for every `n`, two calls
of `Peek(n)` in succession return the same bytes, or fail both times with an
end-of-input error, and the stream after the second call is the stream after
the first. -/
theorem Peek_twice_same_result (s : Stream BytesReader) (n fuel : Nat) (hf : 2 ≤ fuel) :
    ∃ r1 r2 s1, Peek fuel s n = Run.done (r1, s1) ∧ Peek fuel s1 n = Run.done (r2, s1) ∧
      ((∃ data, r1 = Except.ok data ∧ r2 = Except.ok data) ∨
        (∃ e1 e2, r1 = Except.error e1 ∧ r2 = Except.error e2 ∧
          isEOF e1 = true ∧ isEOF e2 = true)) := by
  have h2 := Peek_bytes (afterPeek s n) n fuel hf
  rw [afterPeek_idem, content_afterPeek] at h2
  by_cases h : n ≤ (content s).length
  · refine ⟨Except.ok ((content s).take n), Except.ok ((content s).take n), afterPeek s n,
      ?_, ?_, Or.inl ⟨_, rfl, rfl⟩⟩
    · rw [Peek_bytes s n fuel hf, if_pos h]
    · rw [h2, if_pos h]
  · refine ⟨Except.error (eofError s.Reader.unread),
      Except.error (eofError (afterPeek s n).Reader.unread), afterPeek s n, ?_, ?_,
      Or.inr ⟨_, _, rfl, rfl, isEOF_eofError _, isEOF_eofError _⟩⟩
    · rw [Peek_bytes s n fuel hf, if_neg h]
    · rw [h2, if_neg h]

/-! ## Slice bounds -/

theorem Returns_of_eq {α : Type} {out : Run α} {a : α} (h : out = Run.done a) : Returns out :=
  ⟨a, h⟩

theorem ReadUntil_returns (s : Stream BytesReader) (d : List Byte) (fuel : Nat)
    (hf : s.Reader.unread.length + 1 ≤ fuel) : Returns (ReadUntil fuel s d) := by
  obtain ⟨s1, h1, _, _, h4, _⟩ := PeekUntil_bytes d fuel s hf
  cases hI : Index (content s) d with
  | none =>
    unfold Returns
    simp only [ReadUntil, h1, hI, Option.map_none', Run.bind_done]
    exact ⟨_, rfl⟩
  | some i =>
    obtain ⟨_, _, hlen, _, _⟩ := first_occurrence_of_Index hI
    have hle : i ≤ s1.Buf.length := Nat.le_trans (Nat.le_add_right _ _) (h4 i hI)
    unfold Returns
    simp only [ReadUntil, h1, hI, Option.map_some', Run.bind_done, hlen,
      sliceFrom_of_le hle]
    exact ⟨_, rfl⟩

theorem ReadUntilAndSkip_returns (s : Stream BytesReader) (d : List Byte) (fuel : Nat)
    (hf : s.Reader.unread.length + 1 ≤ fuel) : Returns (ReadUntilAndSkip fuel s d) := by
  obtain ⟨s1, h1, _, _, h4, _⟩ := PeekUntil_bytes d fuel s hf
  cases hI : Index (content s) d with
  | none =>
    unfold Returns
    simp only [ReadUntilAndSkip, h1, hI, Option.map_none', Run.bind_done]
    exact ⟨_, rfl⟩
  | some i =>
    obtain ⟨_, _, hlen, _, _⟩ := first_occurrence_of_Index hI
    unfold Returns
    simp only [ReadUntilAndSkip, h1, hI, Option.map_some', Run.bind_done, hlen,
      sliceFrom_of_le (h4 i hI)]
    exact ⟨_, rfl⟩

theorem StartsWithBytes_returns (s : Stream BytesReader) (bs : List Byte) (fuel : Nat)
    (hf : 2 ≤ fuel) : Returns (StartsWithBytes fuel s bs) := by
  simp only [StartsWithBytes, Peek_bytes s bs.length fuel hf, Run.bind_done]
  split <;> exact ⟨_, rfl⟩

theorem SkipBytes_returns (s : Stream BytesReader) (bs : List Byte) (fuel : Nat)
    (hf : 2 ≤ fuel) : Returns (SkipBytes fuel s bs) := by
  rw [SkipBytes_bytes s bs fuel hf]
  split
  · split <;> exact ⟨_, rfl⟩
  · exact ⟨_, rfl⟩

theorem ReadWhile_returns (s : Stream BytesReader) (fn : Byte → Bool) (fuel : Nat)
    (hf : (content s).length + 2 ≤ fuel) : Returns (ReadWhile fuel s fn) := by
  obtain ⟨s1, h1, _⟩ := readWhileLoop_bytes fn fuel (by omega) fuel s [] (by omega)
  exact ⟨_, h1⟩

/-- C19: on an in-memory source, in every state and for every argument, every
operation returns normally: no slice or index expression on the pending bytes
or on a result is out of range when it is evaluated (such an expression would
make the outcome a panic). -/
theorem no_slice_out_of_range (s : Stream BytesReader) (n : Nat) (bs d : List Byte) (b : Byte)
    (fn : Byte → Bool) (fuel : Nat) (hf : (content s).length + 2 ≤ fuel) :
    Returns (IsEmpty fuel s) ∧ Returns (Peek fuel s n) ∧ Returns (PeekUpTo fuel s n) ∧
    Returns (StartsWithBytes fuel s bs) ∧ Returns (StartsWithByte fuel s b) ∧
    Returns (Skip fuel s n) ∧ Returns (SkipBytes fuel s bs) ∧ Returns (SkipByte fuel s b) ∧
    Returns (SkipWhile fuel s fn) ∧ Returns (Read fuel s n) ∧ Returns (ReadAll fuel s) ∧
    Returns (ReadWhile fuel s fn) ∧ Returns (PeekUntil fuel s d) ∧
    Returns (PeekUntilByte fuel s b) ∧ Returns (ReadUntil fuel s d) ∧
    Returns (ReadUntilAndSkip fuel s d) ∧ Returns (ReadUntilByte fuel s b) ∧
    Returns (ReadUntilByteAndSkip fuel s b) := by
  have h2 : 2 ≤ fuel := by omega
  have hu : s.Reader.unread.length + 1 ≤ fuel := by
    rw [length_content] at hf; omega
  refine ⟨Returns_of_eq (IsEmpty_bytes s fuel h2), Returns_of_eq (Peek_bytes s n fuel h2),
    Returns_of_eq (PeekUpTo_bytes s n fuel h2), StartsWithBytes_returns s bs fuel h2, ?_, ?_,
    SkipBytes_returns s bs fuel h2, SkipBytes_returns s [b] fuel h2, ?_, ?_, ?_,
    ReadWhile_returns s fn fuel hf, ?_, ?_, ReadUntil_returns s d fuel hu,
    ReadUntilAndSkip_returns s d fuel hu, ReadUntil_returns s [b] fuel hu,
    ReadUntilAndSkip_returns s [b] fuel hu⟩
  · obtain ⟨r, hr⟩ := StartsWithByte_bytes s b fuel h2
    exact ⟨_, hr⟩
  · rw [Skip_bytes s n fuel h2]
    split <;> exact ⟨_, rfl⟩
  · obtain ⟨a, ha⟩ := ReadWhile_returns s fn fuel hf
    unfold Returns
    simp only [SkipWhile, ha, Run.bind_done]
    exact ⟨_, rfl⟩
  · rw [Read_bytes s n fuel h2]
    split <;> exact ⟨_, rfl⟩
  · obtain ⟨s1, h1, _⟩ := ReadAll_bytes s fuel hf
    exact ⟨_, h1⟩
  · obtain ⟨s1, h1, _⟩ := PeekUntil_bytes d fuel s hu
    exact ⟨_, h1⟩
  · obtain ⟨s1, h1, _⟩ := PeekUntil_bytes [b] fuel s hu
    exact ⟨_, h1⟩

/-! ## Any reader: one iteration of `PeekUntil`, `PeekUpTo` within the pending bytes -/

/-- One iteration of the loop of `PeekUntil` that finds no match in `Buf`: the
bytes `got` the reader delivers are appended to `Buf`; an error ends the call
(end of input as "no match") before the enlarged `Buf` is searched. -/
theorem PeekUntil_step {ρ : Type} [IoReader ρ] (fuel : Nat) (s : Stream ρ) (delim : List Byte)
    (hI : Index s.Buf delim = none) (got : List Byte) (err : Option Error) (r1 : ρ)
    (hR : IoReader.Read s.Reader 4096 = (got, err, r1)) (hlen : got.length ≤ 4096) :
    PeekUntil (fuel + 1) s delim =
      match err with
      | some e =>
        if isEOF e then Run.done (Except.ok none, ⟨r1, s.Buf ++ got⟩)
        else Run.done (Except.error e, ⟨r1, s.Buf ++ got⟩)
      | none => PeekUntil fuel ⟨r1, s.Buf ++ got⟩ delim := by
  have hsl : sliceFrom (s.Buf ++ make 4096) s.Buf.length = Run.done (make 4096) := by
    rw [sliceFrom_of_le (by simp)]; simp
  have hml : (make 4096).length = 4096 := List.length_replicate _ _
  cases err <;>
  simp only [PeekUntil, hI, hsl, Run.bind_done, hml, hR, Nat.not_lt.2 hlen, if_false,
    sliceTo_stored_chunk]

/-- One iteration of the loop of `PeekUntil` that finds a match in `Buf`. -/
theorem PeekUntil_found {ρ : Type} [IoReader ρ] (fuel : Nat) (s : Stream ρ) (delim : List Byte)
    (idx : Nat) (hI : Index s.Buf delim = some idx) :
    PeekUntil (fuel + 1) s delim = Run.done (Except.ok (some (s.Buf.take idx)), s) := by
  obtain ⟨_, h2, _⟩ := Index_some hI
  simp only [PeekUntil, hI, sliceTo_of_le (show idx ≤ s.Buf.length by omega), Run.bind_done,
    dupBytes_eq]

/-- Whatever the reader, `PeekUpTo(n)` with `n <= len(Buf)` returns the first
`n` pending bytes and leaves the stream as it is. -/
theorem PeekUpTo_of_le {ρ : Type} [IoReader ρ] (fuel : Nat) (s : Stream ρ) (n : Nat)
    (h : n ≤ s.Buf.length) :
    PeekUpTo fuel s n = Run.done (Except.ok (s.Buf.take n), s) := by
  simp only [PeekUpTo, Peek_of_le fuel s n h, Run.bind_done]
  rcases Nat.lt_or_ge n s.Buf.length with h1 | h1
  · simp only [ge_iff_le, Nat.not_le.2 h1, if_false, sliceTo_of_le h, Run.bind_done, dupBytes_eq]
  · have : n = s.Buf.length := Nat.le_antisymm h h1
    subst this
    simp only [ge_iff_le, Nat.le_refl, if_true, sliceTo_of_le, Run.bind_done, dupBytes_eq]

/-- The reader that reports `io.EOF` together with its last bytes is a finite
source holding the bytes of `s` from index `i` on. -/
theorem finiteSource_finalData :
    FiniteSource FinalDataReader (fun r => (r.s.drop r.i).length) := by
  refine ⟨?_, ?_, ?_, ?_⟩
  · intro r k
    exact List.length_take_le _ _
  · intro r k
    show (List.drop (r.i + ((r.s.drop r.i).take k).length) r.s).length
      + ((r.s.drop r.i).take k).length ≤ (r.s.drop r.i).length
    simp only [List.length_drop, List.length_take]
    omega
  · intro r k hk
    show (if r.i + ((r.s.drop r.i).take k).length ≥ r.s.length then some Error.EOF else none)
      = none → 0 < ((r.s.drop r.i).take k).length
    simp only [List.length_drop, List.length_take]
    split
    · intro h; cases h
    · intro _; omega
  · intro r k e
    show (if r.i + ((r.s.drop r.i).take k).length ≥ r.s.length then some Error.EOF else none)
      = some e → isEOF e = true →
        (List.drop (r.i + ((r.s.drop r.i).take k).length) r.s).length = 0
    simp only [List.length_drop, List.length_take]
    split
    · intro _ _; omega
    · intro h; cases h

/-- The reader that fails with a hard error after its bytes is a finite source
holding the bytes of `s` from index `i` on. -/
theorem finiteSource_broken :
    FiniteSource BrokenReader (fun r => (r.s.drop r.i).length) := by
  refine ⟨?_, ?_, ?_, ?_⟩
  · intro r k
    show (BrokenReader.Read r k).1.length ≤ k
    unfold BrokenReader.Read
    split
    · exact Nat.zero_le _
    · exact List.length_take_le _ _
  · intro r k
    show (List.drop (BrokenReader.Read r k).2.2.i (BrokenReader.Read r k).2.2.s).length
      + (BrokenReader.Read r k).1.length ≤ (r.s.drop r.i).length
    unfold BrokenReader.Read
    split
    · exact Nat.le_refl _
    · simp only [List.length_drop, List.length_take]
      omega
  · intro r k hk
    show (BrokenReader.Read r k).2.1 = none → 0 < (BrokenReader.Read r k).1.length
    unfold BrokenReader.Read
    split
    · intro h; cases h
    · intro _
      simp only [List.length_drop, List.length_take]
      omega
  · intro r k e
    show (BrokenReader.Read r k).2.1 = some e → isEOF e = true →
      (List.drop (BrokenReader.Read r k).2.2.i (BrokenReader.Read r k).2.2.s).length = 0
    unfold BrokenReader.Read
    split
    · intro h hE
      cases h
      cases hE
    · intro h; cases h

/-- C14, at a failing input: over a source whose only read delivers the bytes
`1 2 3` together with `io.EOF` (a finite source in the sense above),
`PeekUntil` of the delimiter `2` returns nil ("no match") although `2` occurs
in the bytes delivered, which are all in `Buf` afterwards, at index 1 according
to `bytes.Index`; the same call repeated on the stream left behind returns the
bytes before the match. -/
theorem PeekUntil_misses_match_in_final_read :
    PeekUntil 2 (⟨⟨[1, 2, 3], 0⟩, []⟩ : Stream FinalDataReader) [2]
      = Run.done (Except.ok none, ⟨⟨[1, 2, 3], 3⟩, [1, 2, 3]⟩) ∧
    Index [1, 2, 3] [2] = some 1 ∧
    PeekUntil 2 (⟨⟨[1, 2, 3], 3⟩, [1, 2, 3]⟩ : Stream FinalDataReader) [2]
      = Run.done (Except.ok (some [1]), ⟨⟨[1, 2, 3], 3⟩, [1, 2, 3]⟩) ∧
    FiniteSource FinalDataReader (fun r => (r.s.drop r.i).length) := by
  refine ⟨?_, by decide, ?_, finiteSource_finalData⟩
  · rw [PeekUntil_step 1 (⟨⟨[1, 2, 3], 0⟩, []⟩ : Stream FinalDataReader) [2] (by decide)
      [1, 2, 3] (some Error.EOF) ⟨[1, 2, 3], 3⟩ rfl (by decide)]
    rfl
  · rw [PeekUntil_found 1 (⟨⟨[1, 2, 3], 3⟩, [1, 2, 3]⟩ : Stream FinalDataReader) [2] 1
      (by decide)]
    rfl


/-! ## Round trip -/

/-- One call of the round trip on an in-memory source: it returns, the content
does not grow, and when it succeeds the bytes it took followed by the content
afterwards are the content before. -/
theorem Call.run_bytes (c : Call) (s : Stream BytesReader) (fuel : Nat)
    (hf : (content s).length + 2 ≤ fuel) :
    ∃ res s1, c.run fuel s = Run.done (res, s1) ∧ (content s1).length ≤ (content s).length ∧
      ∀ out, res = Except.ok out → taken (c, out) ++ content s1 = content s := by
  have h2 : 2 ≤ fuel := by omega
  cases c with
  | read n =>
    by_cases hn : n ≤ (content s).length
    · refine ⟨Except.ok (some ((content s).take n)),
        ⟨(afterPeek s n).Reader, (afterPeek s n).Buf.drop n⟩, ?_, ?_, ?_⟩
      · simp only [Call.run, Read_bytes s n fuel h2, if_pos hn, Run.bind_done, Except.map]
      · rw [content_afterPeek_drop s n hn, List.length_drop]; omega
      · intro out hout
        cases hout
        rw [content_afterPeek_drop s n hn]
        exact List.take_append_drop _ _
    · refine ⟨Except.error (eofError s.Reader.unread), afterPeek s n, ?_, ?_, ?_⟩
      · simp only [Call.run, Read_bytes s n fuel h2, if_neg hn, Run.bind_done, Except.map]
      · rw [content_afterPeek]
      · intro out hout; cases hout
  | readWhile fn =>
    obtain ⟨s1, h1, hc⟩ := readWhileLoop_bytes fn fuel h2 fuel s [] (by omega)
    refine ⟨Except.ok (some ((content s).takeWhile fn)), s1, ?_, ?_, ?_⟩
    · simp only [Call.run, ReadWhile, h1, Run.bind_done, Except.map, List.nil_append]
    · rw [hc]
      have := congrArg List.length (List.takeWhile_append_dropWhile fn (content s))
      rw [List.length_append] at this
      omega
    · intro out hout
      cases hout
      rw [hc]
      exact List.takeWhile_append_dropWhile fn (content s)
  | readUntilAndSkip d =>
    have hu : s.Reader.unread.length + 1 ≤ fuel := by
      rw [length_content] at hf; omega
    obtain ⟨s1, h1, hc, _, h4, _⟩ := PeekUntil_bytes d fuel s hu
    cases hI : Index (content s) d with
    | none =>
      refine ⟨Except.ok none, s1, ?_, by rw [hc], ?_⟩
      · simp only [Call.run, ReadUntilAndSkip, h1, hI, Option.map_none', Run.bind_done]
      · intro out hout
        cases hout
        simpa [taken] using hc
    | some i =>
      obtain ⟨B, hB, hlen, hdrop, _⟩ := first_occurrence_of_Index hI
      have hle : i + d.length ≤ s1.Buf.length := h4 i hI
      have hcont : content ⟨s1.Reader, s1.Buf.drop (i + d.length)⟩ = B := by
        rw [content_drop_Buf s1 _ hle, hc, ← List.drop_drop, hdrop, List.drop_left]
      refine ⟨Except.ok (some ((content s).take i)), ⟨s1.Reader, s1.Buf.drop (i + d.length)⟩,
        ?_, ?_, ?_⟩
      · simp only [Call.run, ReadUntilAndSkip, h1, hI, Option.map_some', Run.bind_done, hlen,
          sliceFrom_of_le hle]
      · rw [hcont]
        have := congrArg List.length hB
        simp only [List.length_append] at this
        omega
      · intro out hout
        cases hout
        rw [hcont]
        simpa [taken] using hB.symm

/-- A run of calls on an in-memory source: it returns, and when every call
succeeds the bytes the calls took, in call order, followed by the content
afterwards are the content before. -/
theorem runCalls_bytes (fuel : Nat) :
    ∀ (calls : List Call) (s : Stream BytesReader), (content s).length + 2 ≤ fuel →
      ∃ res s1, runCalls fuel calls s = Run.done (res, s1) ∧
        ∀ outs, res = Except.ok outs → (outs.map taken).flatten ++ content s1 = content s := by
  intro calls
  induction calls with
  | nil =>
    intro s _
    refine ⟨Except.ok [], s, rfl, ?_⟩
    intro outs h
    cases h
    simp
  | cons c cs ih =>
    intro s hf
    obtain ⟨res, s1, h1, hlen, htaken⟩ := c.run_bytes s fuel hf
    cases res with
    | error e =>
      refine ⟨Except.error e, s1, ?_, ?_⟩
      · simp only [runCalls, h1, Run.bind_done]
      · intro outs h; cases h
    | ok out =>
      obtain ⟨res2, s2, h2, hrest⟩ := ih s1 (by omega)
      refine ⟨res2.map (fun outs => (c, out) :: outs), s2, ?_, ?_⟩
      · simp only [runCalls, h1, Run.bind_done, h2]
      · intro outs h
        cases res2 with
        | error e => cases h
        | ok outs2 =>
          simp only [Except.map, Except.ok.injEq] at h
          subst h
          simp only [List.map_cons, List.flatten_cons, List.append_assoc]
          rw [hrest outs2 rfl]
          exact htaken out rfl

/-- C16, as stated, fails: on the source `1 2 4` the single call
`ReadUntilAndSkip` of the delimiter `2 4` succeeds and returns `1`, `IsEmpty`
then reports true, and the concatenation of the sequences returned is `1`, not
the source content `1 2 4`. -/
theorem round_trip_drops_delimiter :
    runCalls 5 [Call.readUntilAndSkip [2, 4]] (NewStreamBytes [1, 2, 4])
      = Run.done (Except.ok [(Call.readUntilAndSkip [2, 4], some [1])], ⟨⟨[1, 2, 4], 3⟩, []⟩) ∧
    IsEmpty 5 (⟨⟨[1, 2, 4], 3⟩, []⟩ : Stream BytesReader)
      = Run.done (Except.ok true, ⟨⟨[1, 2, 4], 3⟩, []⟩) ∧
    ([(Call.readUntilAndSkip [2, 4], some [1])].map returned).flatten ≠ ([1, 2, 4] : List Byte) := by
  refine ⟨?_, rfl, by decide⟩
  have h1 : PeekUntil 5 (NewStreamBytes [1, 2, 4]) [2, 4]
      = Run.done (Except.ok (some [1]), ⟨⟨[1, 2, 4], 3⟩, [1, 2, 4]⟩) := by
    rw [PeekUntil_step 4 (NewStreamBytes [1, 2, 4]) [2, 4] (by decide)
      [1, 2, 4] none ⟨[1, 2, 4], 3⟩ rfl (by decide)]
    exact PeekUntil_found 3 (⟨⟨[1, 2, 4], 3⟩, [1, 2, 4]⟩ : Stream BytesReader) [2, 4] 1
      (by decide)
  simp only [runCalls, Call.run, ReadUntilAndSkip, h1, Run.bind_done]
  rfl

/-- C16, amended: for every in-memory source content `S` and every sequence of
calls of `Read`, `ReadWhile` and `ReadUntilAndSkip` that all succeed, the
sequences the calls returned, each one returned by a `ReadUntilAndSkip` that
found its delimiter being followed by that delimiter, concatenated in call
order and followed by the content left, are `S`; so they are `S` when the run
goes on until `IsEmpty` reports true. -/
theorem round_trip_with_delimiters (S : List Byte) (calls : List Call) (fuel : Nat)
    (hf : S.length + 2 ≤ fuel) :
    ∃ res s1, runCalls fuel calls (NewStreamBytes S) = Run.done (res, s1) ∧
      ∀ outs, res = Except.ok outs →
        (outs.map taken).flatten ++ content s1 = S ∧
        (∀ s2, IsEmpty fuel s1 = Run.done (Except.ok true, s2) → (outs.map taken).flatten = S) := by
  have hS : content (NewStreamBytes S) = S := by
    simp [content, NewStreamBytes, NewStream, BytesReader.unread]
  obtain ⟨res, s1, h1, h2⟩ := runCalls_bytes fuel calls (NewStreamBytes S) (by rw [hS]; exact hf)
  refine ⟨res, s1, h1, ?_⟩
  intro outs hres
  have h3 := h2 outs hres
  rw [hS] at h3
  refine ⟨h3, ?_⟩
  intro s2 hE
  have hlen : (content s1).length ≤ S.length := by
    have := congrArg List.length h3
    rw [List.length_append] at this
    omega
  rw [IsEmpty_bytes s1 fuel (by omega)] at hE
  simp only [Run.done.injEq, Prod.mk.injEq, Except.ok.injEq, decide_eq_true_eq] at hE
  rw [hE.1, List.append_nil] at h3
  exact h3

/-! ## Termination over finite sources -/

/-- The loop of `io.ReadAtLeast` over a finite source returns within
`size r + 1` iterations. -/
theorem readAtLeastLoop_finite {ρ : Type} [IoReader ρ] {size : ρ → Nat}
    (hs : FiniteSource ρ size) (bufLen min : Nat)
    (hmin : min ≤ bufLen) :
    ∀ (fuel : Nat) (r : ρ) (got : List Byte), size r + 1 ≤ fuel → got.length ≤ bufLen →
      ∃ got1 err1 r1, readAtLeastLoop bufLen min fuel r got none = Run.done (got1, err1, r1) ∧
        got1.length ≤ bufLen ∧ size r1 + got1.length ≤ size r + got.length ∧
        (err1 = none → min ≤ got1.length) ∧
        (∀ e, err1 = some e → isEOF e = true → size r1 = 0) := by
  intro fuel
  induction fuel with
  | zero => intro r got h; omega
  | succ fuel ih =>
    intro r got hf hgot
    by_cases hlt : got.length < min
    · rcases hR : IoReader.Read r (bufLen - got.length) with ⟨data, err, r1⟩
      have hle := hs.read_le r (bufLen - got.length)
      have hsz := hs.size_read r (bufLen - got.length)
      have hpr := hs.progress r (bufLen - got.length) (by omega)
      have hex := hs.exhausted r (bufLen - got.length)
      rw [hR] at hle hsz hpr hex
      simp only at hle hsz hpr hex
      have hstep : readAtLeastLoop bufLen min (fuel + 1) r got none
          = readAtLeastLoop bufLen min fuel r1 (got ++ data) err := by
        simp only [readAtLeastLoop, hlt, and_self, if_true, hR, Nat.not_lt.2 hle, if_false]
      rw [hstep]
      cases err with
      | some e =>
        refine ⟨got ++ data, some e, r1, readAtLeastLoop_err _ _ _ _ _ _, ?_, ?_, ?_, ?_⟩
        · rw [List.length_append]; omega
        · rw [List.length_append]; omega
        · intro h; cases h
        · intro e1 h1 h2
          exact hex e1 h1 h2
      | none =>
        have hpos := hpr rfl
        obtain ⟨got1, err1, r2, h1, h2, h3, h4, h5⟩ := ih r1 (got ++ data) (by omega)
          (by rw [List.length_append]; omega)
        refine ⟨got1, err1, r2, h1, h2, ?_, h4, h5⟩
        rw [List.length_append] at h3
        omega
    · refine ⟨got, none, r, ?_, hgot, Nat.le_refl _, fun _ => Nat.not_lt.1 hlt, ?_⟩
      · simp only [readAtLeastLoop, hlt, false_and, if_false]
      · intro e h; cases h

/-- Function `io.ReadAtLeast` over a finite source, asked for `rest` bytes into
a buffer of that length. -/
theorem ReadAtLeast_finite {ρ : Type} [IoReader ρ] {size : ρ → Nat}
    (hs : FiniteSource ρ size) (rest fuel : Nat) (r : ρ)
    (hf : size r + 1 ≤ fuel) :
    ∃ got err r1, ReadAtLeast fuel r rest rest = Run.done (got, err, r1) ∧
      got.length ≤ rest ∧ size r1 + got.length ≤ size r ∧
      (err = none → got.length = rest) ∧
      (∀ e, err = some e → got.length < rest ∧ (isEOF e = true → size r1 = 0)) := by
  obtain ⟨got, err, r1, h1, h2, h3, h4, h5⟩ :=
    readAtLeastLoop_finite hs rest rest (Nat.le_refl _) fuel r [] hf (Nat.zero_le _)
  simp only [List.length_nil, Nat.add_zero] at h3
  by_cases hge : rest ≤ got.length
  · refine ⟨got, none, r1, ?_, h2, h3, fun _ => Nat.le_antisymm h2 hge, ?_⟩
    · simp only [ReadAtLeast, Nat.lt_irrefl, if_false, h1, Run.bind_done, ge_iff_le, hge, if_true]
    · intro e h; cases h
  · have hne : err ≠ none := fun h => hge (h4 h)
    by_cases hE : 0 < got.length ∧ err = some Error.EOF
    · refine ⟨got, some Error.ErrUnexpectedEOF, r1, ?_, h2, h3, ?_, ?_⟩
      · simp only [ReadAtLeast, Nat.lt_irrefl, if_false, h1, Run.bind_done, ge_iff_le, hge,
          gt_iff_lt, hE, and_self, if_true]
      · intro h; cases h
      · intro e _
        exact ⟨Nat.not_le.1 hge, fun _ => h5 Error.EOF hE.2 (by decide)⟩
    · refine ⟨got, err, r1, ?_, h2, h3, fun h => absurd h hne, ?_⟩
      · simp only [ReadAtLeast, Nat.lt_irrefl, if_false, h1, Run.bind_done, ge_iff_le, hge,
          gt_iff_lt, hE]
      · intro e he
        exact ⟨Nat.not_le.1 hge, h5 e he⟩

/-- Call `Peek(n)` over a finite source: it returns, the pending bytes only
grow, no byte is lost or made up, a success leaves at least `n` pending bytes
and returns the first `n`, and an end-of-input error means that the source
holds no more bytes. -/
theorem Peek_finite {ρ : Type} [IoReader ρ] {size : ρ → Nat}
    (hs : FiniteSource ρ size) (s : Stream ρ) (n fuel : Nat)
    (hf : size s.Reader + 1 ≤ fuel) :
    ∃ res s1, Peek fuel s n = Run.done (res, s1) ∧ s.Buf <+: s1.Buf ∧
      unconsumed size s1 ≤ unconsumed size s ∧ size s1.Reader ≤ size s.Reader ∧
      (∀ d, res = Except.ok d → n ≤ s1.Buf.length ∧ d = s1.Buf.take n) ∧
      (∀ e, res = Except.error e → s1.Buf.length < n ∧ (isEOF e = true → size s1.Reader = 0)) := by
  rcases Nat.lt_or_ge s.Buf.length n with hlt | hge
  · obtain ⟨got, err, r1, h1, h2, h3, h4, h5⟩ :=
      ReadAtLeast_finite hs (n - s.Buf.length) fuel s.Reader hf
    have hsl : sliceFrom (s.Buf ++ make (n - s.Buf.length)) s.Buf.length
        = Run.done (make (n - s.Buf.length)) := by
      rw [sliceFrom_of_le (by simp)]; simp
    have hml : (make (n - s.Buf.length)).length = n - s.Buf.length := List.length_replicate _ _
    cases err with
    | some e =>
      obtain ⟨h6, h7⟩ := h5 e rfl
      have h8 : sliceTo (s.Buf ++ got ++ make (n - s.Buf.length - got.length))
          (s.Buf.length + got.length) = Run.done (s.Buf ++ got) := by
        rw [sliceTo_of_le (by simp), List.take_append_of_le_length (by simp),
          List.take_of_length_le (by simp)]
      refine ⟨Except.error e, ⟨r1, s.Buf ++ got⟩, ?_, List.prefix_append _ _, ?_,
        Nat.le_trans (Nat.le_add_right _ _) h3, ?_, ?_⟩
      · simp only [Peek, hlt, if_true, hsl, Run.bind_done, hml, h1, stored_append_make, h8]
      · simp only [unconsumed, List.length_append]; omega
      · intro d hd; cases hd
      · intro e1 he1
        cases he1
        exact ⟨by simp only [List.length_append]; omega, h7⟩
    | none =>
      have h6 := h4 rfl
      have h8 : sliceTo (s.Buf ++ got ++ make (n - s.Buf.length - got.length)) n
          = Run.done (s.Buf ++ got) := by
        have hm0 : make (n - s.Buf.length - got.length) = [] := by
          rw [h6, Nat.sub_self]; rfl
        rw [hm0, List.append_nil, sliceTo_of_le (by simp only [List.length_append]; omega),
          List.take_of_length_le (by simp only [List.length_append]; omega)]
      refine ⟨Except.ok (s.Buf ++ got), ⟨r1, s.Buf ++ got ++ make (n - s.Buf.length - got.length)⟩,
        ?_, ?_, ?_, Nat.le_trans (Nat.le_add_right _ _) h3, ?_, ?_⟩
      · simp only [Peek, hlt, if_true, hsl, Run.bind_done, hml, h1, stored_append_make, h8,
          dupBytes_eq]
      · rw [List.append_assoc]; exact List.prefix_append _ _
      · simp only [unconsumed, List.length_append, hml, make, List.length_replicate]; omega
      · intro d hd
        cases hd
        have hm0 : make (n - s.Buf.length - got.length) = [] := by
          rw [h6, Nat.sub_self]; rfl
        simp only [hm0, List.append_nil]
        refine ⟨by simp only [List.length_append]; omega, ?_⟩
        rw [List.take_of_length_le (by simp only [List.length_append]; omega)]
      · intro e he; cases he
  · refine ⟨Except.ok (s.Buf.take n), s, Peek_of_le fuel s n hge, List.prefix_refl _,
      Nat.le_refl _, Nat.le_refl _, ?_, ?_⟩
    · intro d hd; cases hd; exact ⟨hge, rfl⟩
    · intro e he; cases he

/-- The last statements of `PeekUpTo`: `n` clamped to `len(Buf)`, then the copy
of `Buf[0:n]`. -/
theorem PeekUpTo_clamp {ρ : Type} (s1 : Stream ρ) (n : Nat) :
    ((sliceTo s1.Buf (if n ≥ s1.Buf.length then s1.Buf.length else n)).bind fun d =>
        Run.done ((Except.ok (dupBytes d) : Except Error (List Byte)), s1))
      = Run.done (Except.ok (s1.Buf.take n), s1) := by
  rcases Nat.lt_or_ge n s1.Buf.length with h | h
  · rw [if_neg (Nat.not_le.2 h), sliceTo_of_le (Nat.le_of_lt h)]
    simp only [Run.bind_done, dupBytes_eq]
  · rw [if_pos h, sliceTo_of_le (Nat.le_refl _)]
    simp only [Run.bind_done, dupBytes_eq, List.take_length, List.take_of_length_le h]

/-- Call `PeekUpTo(n)` over a finite source: it returns, no byte is lost or made
up, and a success returns the first `n` pending bytes, fewer than `n` only when
the source holds no more bytes. -/
theorem PeekUpTo_finite {ρ : Type} [IoReader ρ] {size : ρ → Nat}
    (hs : FiniteSource ρ size) (s : Stream ρ) (n fuel : Nat)
    (hf : size s.Reader + 1 ≤ fuel) :
    ∃ res s1, PeekUpTo fuel s n = Run.done (res, s1) ∧
      unconsumed size s1 ≤ unconsumed size s ∧ size s1.Reader ≤ size s.Reader ∧
      (∀ d, res = Except.ok d → d = s1.Buf.take n ∧ (n ≤ s1.Buf.length ∨ size s1.Reader = 0)) := by
  obtain ⟨res, s1, h1, _, h3, h4, h5, h6⟩ := Peek_finite hs s n fuel hf
  cases res with
  | ok d0 =>
    refine ⟨Except.ok (s1.Buf.take n), s1, ?_, h3, h4, ?_⟩
    · simp only [PeekUpTo, h1, Run.bind_done, PeekUpTo_clamp]
    · intro d hd
      cases hd
      exact ⟨rfl, Or.inl (h5 d0 rfl).1⟩
  | error e =>
    cases hE : isEOF e with
    | false =>
      refine ⟨Except.error e, s1, ?_, h3, h4, ?_⟩
      · simp only [PeekUpTo, h1, Run.bind_done, hE, Bool.not_false, if_true]
      · intro d hd; cases hd
    | true =>
      refine ⟨Except.ok (s1.Buf.take n), s1, ?_, h3, h4, ?_⟩
      · simp only [PeekUpTo, h1, Run.bind_done, hE, Bool.not_true, Bool.false_eq_true, if_false,
          PeekUpTo_clamp]
      · intro d hd
        cases hd
        exact ⟨rfl, Or.inr ((h6 e rfl).2 hE)⟩

/-- Call `IsEmpty` over a finite source: it returns, no byte is lost or made
up, and it answers false only when some byte is not yet consumed. -/
theorem IsEmpty_finite {ρ : Type} [IoReader ρ] {size : ρ → Nat}
    (hs : FiniteSource ρ size) (s : Stream ρ) (fuel : Nat)
    (hf : size s.Reader + 1 ≤ fuel) :
    ∃ res s1, IsEmpty fuel s = Run.done (res, s1) ∧
      unconsumed size s1 ≤ unconsumed size s ∧
      (res = Except.ok false → 0 < unconsumed size s) := by
  by_cases hb : s.Buf.length > 0
  · refine ⟨Except.ok false, s, ?_, Nat.le_refl _, fun _ => ?_⟩
    · simp only [IsEmpty, hb, if_true]
    · simp only [unconsumed]; omega
  · obtain ⟨res, s1, h1, _, h3, _, h5, h6⟩ := Peek_finite hs s 1 fuel hf
    cases res with
    | ok d0 =>
      refine ⟨Except.ok false, s1, ?_, h3, fun _ => ?_⟩
      · simp only [IsEmpty, hb, if_false, h1, Run.bind_done]
      · have := (h5 d0 rfl).1
        simp only [unconsumed] at h3 ⊢
        omega
    | error e =>
      cases hE : isEOF e with
      | false =>
        refine ⟨Except.error e, s1, ?_, h3, fun h => ?_⟩
        · simp only [IsEmpty, hb, if_false, h1, Run.bind_done, hE, Bool.false_eq_true]
        · cases h
      | true =>
        refine ⟨Except.ok true, s1, ?_, h3, fun h => ?_⟩
        · simp only [IsEmpty, hb, if_false, h1, Run.bind_done, hE, if_true]
        · cases h

/-- One iteration of the loop of `PeekUntil` over a finite source: it returns,
or the loop goes on with a source that holds fewer bytes. -/
theorem PeekUntil_iteration {ρ : Type} [IoReader ρ] {size : ρ → Nat}
    (hs : FiniteSource ρ size) (s : Stream ρ) (delim : List Byte) :
    (∃ a, ∀ k, PeekUntil (k + 1) s delim = Run.done a) ∨
    (∃ s1, size s1.Reader < size s.Reader ∧
      ∀ k, PeekUntil (k + 1) s delim = PeekUntil k s1 delim) := by
  cases hI : Index s.Buf delim with
  | some idx => exact Or.inl ⟨_, fun k => PeekUntil_found k s delim idx hI⟩
  | none =>
    rcases hR : IoReader.Read s.Reader 4096 with ⟨got, err, r1⟩
    have hle := hs.read_le s.Reader 4096
    have hsz := hs.size_read s.Reader 4096
    have hpr := hs.progress s.Reader 4096 (by decide)
    rw [hR] at hle hsz hpr
    simp only at hle hsz hpr
    cases err with
    | some e =>
      cases hE : isEOF e with
      | true =>
        refine Or.inl ⟨(Except.ok none, ⟨r1, s.Buf ++ got⟩), fun k => ?_⟩
        rw [PeekUntil_step k s delim hI got (some e) r1 hR hle]
        simp only [hE, if_true]
      | false =>
        refine Or.inl ⟨(Except.error e, ⟨r1, s.Buf ++ got⟩), fun k => ?_⟩
        rw [PeekUntil_step k s delim hI got (some e) r1 hR hle]
        simp only [hE, Bool.false_eq_true, if_false]
    | none =>
      have hpos := hpr rfl
      exact Or.inr ⟨⟨r1, s.Buf ++ got⟩, by show size r1 < size s.Reader; omega,
        fun k => PeekUntil_step k s delim hI got none r1 hR hle⟩

/-- One iteration of the loop of `ReadWhile` over a finite source: it returns,
or the loop goes on with fewer bytes not yet consumed. -/
theorem readWhileLoop_iteration {ρ : Type} [IoReader ρ] {size : ρ → Nat}
    (hs : FiniteSource ρ size) (fn : Byte → Bool) (fuel : Nat)
    (s : Stream ρ) (data : List Byte) (hf : size s.Reader + 1 ≤ fuel) :
    (∃ a, ∀ k, readWhileLoop fuel fn (k + 1) s data = Run.done a) ∨
    (∃ s1 data1, unconsumed size s1 < unconsumed size s ∧
      ∀ k, readWhileLoop fuel fn (k + 1) s data = readWhileLoop fuel fn k s1 data1) := by
  obtain ⟨res, s1, h1, h2, _, h4⟩ := PeekUpTo_finite hs s blockSize fuel hf
  cases res with
  | error e =>
    exact Or.inl ⟨(Except.error e, s1), fun k => by simp only [readWhileLoop, h1, Run.bind_done]⟩
  | ok block =>
    obtain ⟨hblock, _⟩ := h4 block rfl
    have hble : block.length ≤ s1.Buf.length := by
      rw [hblock, List.length_take]; exact Nat.min_le_right _ _
    by_cases hb : block.length = 0
    · exact Or.inl ⟨(Except.ok data, s1), fun k => by
        simp only [readWhileLoop, h1, Run.bind_done, hb, if_true]⟩
    · by_cases htw : (block.takeWhile fn).length < block.length
      · have hle : (block.takeWhile fn).length ≤ s1.Buf.length :=
          Nat.le_trans (Nat.le_of_lt htw) hble
        exact Or.inl ⟨(Except.ok (data ++ block.takeWhile fn),
            ⟨s1.Reader, s1.Buf.drop (block.takeWhile fn).length⟩), fun k => by
          simp only [readWhileLoop, h1, Run.bind_done, hb, if_false, rangeBlock_eq, htw, if_true,
            Nat.zero_add, sliceFrom_of_le hle]⟩
      · refine Or.inr ⟨⟨s1.Reader, s1.Buf.drop block.length⟩, data ++ block.takeWhile fn, ?_,
          fun k => ?_⟩
        · simp only [unconsumed, List.length_drop] at h2 ⊢
          omega
        · simp only [readWhileLoop, h1, Run.bind_done, hb, if_false, rangeBlock_eq, htw,
            sliceFrom_of_le hble]

/-- One iteration of the loop of `ReadAll` over a finite source: it returns,
or the loop goes on with fewer bytes not yet consumed. -/
theorem readAllLoop_iteration {ρ : Type} [IoReader ρ] {size : ρ → Nat}
    (hs : FiniteSource ρ size) (fuel : Nat) (s : Stream ρ)
    (buf : List Byte) (hf : size s.Reader + 1 ≤ fuel) :
    (∃ a, ∀ k, readAllLoop fuel (k + 1) s buf = Run.done a) ∨
    (∃ s1 buf1, unconsumed size s1 < unconsumed size s ∧
      ∀ k, readAllLoop fuel (k + 1) s buf = readAllLoop fuel k s1 buf1) := by
  obtain ⟨res, s1, h1, h2, h3, h4⟩ := PeekUpTo_finite hs s 4096 fuel hf
  cases res with
  | error e =>
    exact Or.inl ⟨(Except.error e, s1), fun k => by simp only [readAllLoop, h1, Run.bind_done]⟩
  | ok data =>
    obtain ⟨hdata, hfull⟩ := h4 data rfl
    have hble : data.length ≤ s1.Buf.length := by
      rw [hdata, List.length_take]; exact Nat.min_le_right _ _
    obtain ⟨res2, s3, h5, h6, h7⟩ := IsEmpty_finite hs
      (⟨s1.Reader, s1.Buf.drop data.length⟩ : Stream ρ) fuel (by show size s1.Reader + 1 ≤ fuel; omega)
    have hstep : ∀ k, readAllLoop fuel (k + 1) s buf =
        match res2 with
        | Except.error err => Run.done (Except.error err, s3)
        | Except.ok empty =>
          if empty then Run.done (Except.ok (buf ++ data), s3)
          else readAllLoop fuel k s3 (buf ++ data) := by
      intro k
      simp only [readAllLoop, h1, Run.bind_done, sliceFrom_of_le hble, h5]
      cases res2 <;> rfl
    cases res2 with
    | error e => exact Or.inl ⟨(Except.error e, s3), fun k => by rw [hstep k]⟩
    | ok empty =>
      cases empty with
      | true => exact Or.inl ⟨(Except.ok (buf ++ data), s3), fun k => by rw [hstep k]; rfl⟩
      | false =>
        refine Or.inr ⟨s3, buf ++ data, ?_, fun k => by rw [hstep k]; rfl⟩
        have hpos := h7 rfl
        simp only [unconsumed, List.length_drop] at h2 h6 hpos ⊢
        have hd : 0 < data.length := by
          by_contra hd0
          have hd0 : data.length = 0 := by omega
          rcases hfull with hfull | hfull
          · have : data.length = 4096 := by
              rw [hdata, List.length_take, Nat.min_eq_left hfull]
            omega
          · rw [hdata, List.length_take] at hd0
            have : s1.Buf.length = 0 := by
              rcases Nat.le_total 4096 s1.Buf.length with h | h
              · rw [Nat.min_eq_left h] at hd0; omega
              · rw [Nat.min_eq_right h] at hd0; exact hd0
            omega
        omega

/-- The loop of `PeekUntil` over a finite source returns within
`size + 1` iterations. -/
theorem PeekUntil_finite {ρ : Type} [IoReader ρ] {size : ρ → Nat}
    (hs : FiniteSource ρ size) (delim : List Byte) :
    ∀ (k : Nat) (s : Stream ρ), size s.Reader + 1 ≤ k → Returns (PeekUntil k s delim) := by
  intro k
  induction k with
  | zero => intro s h; omega
  | succ k ih =>
    intro s hk
    rcases PeekUntil_iteration hs s delim with ⟨a, ha⟩ | ⟨s1, hlt, hs1⟩
    · exact ⟨a, ha k⟩
    · rw [hs1 k]
      exact ih s1 (by omega)

/-- The loop of `ReadWhile` over a finite source returns within
`unconsumed + 1` iterations. -/
theorem readWhileLoop_finite {ρ : Type} [IoReader ρ] {size : ρ → Nat}
    (hs : FiniteSource ρ size) (fn : Byte → Bool) (fuel : Nat) :
    ∀ (k : Nat) (s : Stream ρ) (data : List Byte), unconsumed size s + 1 ≤ k →
      unconsumed size s + 1 ≤ fuel → Returns (readWhileLoop fuel fn k s data) := by
  intro k
  induction k with
  | zero => intro s data h; omega
  | succ k ih =>
    intro s data hk hf
    have hsz : size s.Reader + 1 ≤ fuel := by
      simp only [unconsumed] at hf; omega
    rcases readWhileLoop_iteration hs fn fuel s data hsz with ⟨a, ha⟩ | ⟨s1, data1, hlt, hs1⟩
    · exact ⟨a, ha k⟩
    · rw [hs1 k]
      exact ih s1 data1 (by omega) (by omega)

/-- The loop of `ReadAll` over a finite source returns within
`unconsumed + 1` iterations. -/
theorem readAllLoop_finite {ρ : Type} [IoReader ρ] {size : ρ → Nat}
    (hs : FiniteSource ρ size) (fuel : Nat) :
    ∀ (k : Nat) (s : Stream ρ) (buf : List Byte), unconsumed size s + 1 ≤ k →
      unconsumed size s + 1 ≤ fuel → Returns (readAllLoop fuel k s buf) := by
  intro k
  induction k with
  | zero => intro s buf h; omega
  | succ k ih =>
    intro s buf hk hf
    have hsz : size s.Reader + 1 ≤ fuel := by
      simp only [unconsumed] at hf; omega
    rcases readAllLoop_iteration hs fuel s buf hsz with ⟨a, ha⟩ | ⟨s1, buf1, hlt, hs1⟩
    · exact ⟨a, ha k⟩
    · rw [hs1 k]
      exact ih s1 buf1 (by omega) (by omega)


/-- An in-memory source is a finite source holding its undelivered bytes. -/
theorem finiteSource_bytes : FiniteSource BytesReader (fun r => r.unread.length) := by
  refine ⟨?_, ?_, ?_, ?_⟩
  · intro r k
    rw [IoReader_Read_bytes]
    rcases Nat.lt_or_ge r.i r.s.length with h | h
    · rw [BytesReader.Read_of_lt r k h]
      exact List.length_take_le _ _
    · rw [BytesReader.Read_of_ge r k h]
      exact Nat.zero_le _
  · intro r k
    rw [IoReader_Read_bytes]
    rcases Nat.lt_or_ge r.i r.s.length with h | h
    · rw [BytesReader.Read_of_lt r k h]
      simp only [BytesReader.unread, List.length_drop, List.length_take]
      omega
    · rw [BytesReader.Read_of_ge r k h]
      exact Nat.le_refl _
  · intro r k hk
    rw [IoReader_Read_bytes]
    rcases Nat.lt_or_ge r.i r.s.length with h | h
    · rw [BytesReader.Read_of_lt r k h]
      intro _
      simp only [BytesReader.unread, List.length_drop, List.length_take]
      omega
    · rw [BytesReader.Read_of_ge r k h]
      intro hc
      cases hc
  · intro r k e
    rw [IoReader_Read_bytes]
    rcases Nat.lt_or_ge r.i r.s.length with h | h
    · rw [BytesReader.Read_of_lt r k h]
      intro hc
      cases hc
    · rw [BytesReader.Read_of_ge r k h]
      intro _ _
      simp only [BytesReader.unread, List.length_drop]
      omega

/-- C20: over every source that holds finitely many bytes and whose every read
delivers at least one byte, signals exhaustion or fails with a hard error (an
in-memory source is one), the loops of `PeekUntil`, `ReadWhile` and `ReadAll`
return for every argument, within a number of iterations bounded by the bytes
not yet consumed; and one iteration of each loop either returns or goes on
with strictly fewer bytes not yet pulled from the source (`PeekUntil`), not yet
consumed from the stream (`ReadWhile`, `ReadAll`). -/
theorem loops_terminate_over_finite_sources {ρ : Type} [IoReader ρ] (size : ρ → Nat)
    (hs : FiniteSource ρ size) (s : Stream ρ) (delim : List Byte) (fn : Byte → Bool)
    (acc : List Byte) (fuel : Nat) (hf : unconsumed size s + 1 ≤ fuel) :
    Returns (PeekUntil fuel s delim) ∧ Returns (ReadWhile fuel s fn) ∧
    Returns (ReadAll fuel s) ∧
    ((∃ a, ∀ k, PeekUntil (k + 1) s delim = Run.done a) ∨
      (∃ s1, size s1.Reader < size s.Reader ∧
        ∀ k, PeekUntil (k + 1) s delim = PeekUntil k s1 delim)) ∧
    ((∃ a, ∀ k, readWhileLoop fuel fn (k + 1) s acc = Run.done a) ∨
      (∃ s1 acc1, unconsumed size s1 < unconsumed size s ∧
        ∀ k, readWhileLoop fuel fn (k + 1) s acc = readWhileLoop fuel fn k s1 acc1)) ∧
    ((∃ a, ∀ k, readAllLoop fuel (k + 1) s acc = Run.done a) ∨
      (∃ s1 acc1, unconsumed size s1 < unconsumed size s ∧
        ∀ k, readAllLoop fuel (k + 1) s acc = readAllLoop fuel k s1 acc1)) ∧
    FiniteSource BytesReader (fun r => r.unread.length) := by
  have hsz : size s.Reader + 1 ≤ fuel := by
    simp only [unconsumed] at hf; omega
  exact ⟨PeekUntil_finite hs delim fuel s hsz, readWhileLoop_finite hs fn fuel fuel s [] hf hf,
    readAllLoop_finite hs fuel fuel s [] hf hf, PeekUntil_iteration hs s delim,
    readWhileLoop_iteration hs fn fuel s acc hsz, readAllLoop_iteration hs fuel s acc hsz,
    finiteSource_bytes⟩

/-! ## The later theorems at concrete streams -/

/-- Call `ReadAll` on the source `1 2 3`, twice. -/
theorem ReadAll_returns_content_witness :
    3 + 2 ≤ 5 ∧
    ∃ s1 s2, ReadAll 5 (NewStreamBytes [1, 2, 3]) = Run.done (Except.ok [1, 2, 3], s1) ∧
      s1.Buf = [] ∧ s1.Reader.unread = [] ∧
      ReadAll 5 s1 = Run.done (Except.ok [], s2) ∧
      s2.Buf = [] ∧ s2.Reader.unread = [] :=
  ⟨by decide, ReadAll_returns_content (NewStreamBytes [1, 2, 3]) 5 (by decide)⟩

/-- Call `SkipBytes` of the pattern `1 2 3 4` on the source `1 2 3`, a proper
prefix of the pattern. -/
theorem SkipBytes_consumes_matching_bytes_witness :
    2 ≤ 2 ∧ 3 < 4 ∧
    ∃ e s1, SkipBytes 2 (NewStreamBytes [1, 2, 3]) [1, 2, 3, 4]
        = Run.done (Except.error e, s1) ∧ content s1 = [1, 2, 3] :=
  ⟨by decide, by decide,
    (SkipBytes_consumes_matching_bytes (NewStreamBytes [1, 2, 3]) [1, 2, 3, 4] 2 (by decide)).1
      (by decide)⟩

/-- The Peek family on the stream with one pending byte `9` over the source
`1 2 3 4 5` read up to index 1. -/
theorem Peek_family_only_grows_pending_witness :
    4 + 2 ≤ 6 ∧
    PeekLike (⟨⟨[1, 2, 3, 4, 5], 1⟩, [9]⟩ : Stream BytesReader)
      (Peek 6 (⟨⟨[1, 2, 3, 4, 5], 1⟩, [9]⟩ : Stream BytesReader) 7) ∧
    PeekLike (⟨⟨[1, 2, 3, 4, 5], 1⟩, [9]⟩ : Stream BytesReader)
      (PeekUntil 6 (⟨⟨[1, 2, 3, 4, 5], 1⟩, [9]⟩ : Stream BytesReader) [3, 4]) :=
  ⟨by decide,
    (Peek_family_only_grows_pending ⟨⟨[1, 2, 3, 4, 5], 1⟩, [9]⟩ 7 [3, 4] [9, 2] 9 6
      (by decide)).1,
    (Peek_family_only_grows_pending ⟨⟨[1, 2, 3, 4, 5], 1⟩, [9]⟩ 7 [3, 4] [9, 2] 9 6
      (by decide)).2.2.1⟩

/-- Two calls of `Peek(7)` on the stream with one pending byte `9` over the
source `1 2 3 4 5` read up to index 1. -/
theorem Peek_twice_same_result_witness :
    2 ≤ 2 ∧
    ∃ r1 r2 s1, Peek 2 (⟨⟨[1, 2, 3, 4, 5], 1⟩, [9]⟩ : Stream BytesReader) 7
        = Run.done (r1, s1) ∧
      Peek 2 s1 7 = Run.done (r2, s1) ∧
      ((∃ data, r1 = Except.ok data ∧ r2 = Except.ok data) ∨
        (∃ e1 e2, r1 = Except.error e1 ∧ r2 = Except.error e2 ∧
          isEOF e1 = true ∧ isEOF e2 = true)) :=
  ⟨by decide, Peek_twice_same_result ⟨⟨[1, 2, 3, 4, 5], 1⟩, [9]⟩ 7 2 (by decide)⟩

/-- The consuming operations on the source `1 2 4 7`. -/
theorem no_slice_out_of_range_witness :
    4 + 2 ≤ 6 ∧
    Returns (Skip 6 (NewStreamBytes [1, 2, 4, 7]) 9) ∧
    Returns (StartsWithByte 6 (NewStreamBytes [1, 2, 4, 7]) 1) ∧
    Returns (ReadUntilAndSkip 6 (NewStreamBytes [1, 2, 4, 7]) [4, 7]) :=
  ⟨by decide,
    (no_slice_out_of_range (NewStreamBytes [1, 2, 4, 7]) 9 [1, 2] [4, 7] 1 (fun _ => true) 6
      (by decide)).2.2.2.2.2.1,
    (no_slice_out_of_range (NewStreamBytes [1, 2, 4, 7]) 9 [1, 2] [4, 7] 1 (fun _ => true) 6
      (by decide)).2.2.2.2.1,
    (no_slice_out_of_range (NewStreamBytes [1, 2, 4, 7]) 9 [1, 2] [4, 7] 1 (fun _ => true) 6
      (by decide)).2.2.2.2.2.2.2.2.2.2.2.2.2.2.2.1⟩

/-- The calls `ReadUntilAndSkip` of `2 4`, then `Read(1)`, on the source
`1 2 4 7`. -/
theorem round_trip_with_delimiters_witness :
    4 + 2 ≤ 6 ∧
    ∃ res s1, runCalls 6 [Call.readUntilAndSkip [2, 4], Call.read 1] (NewStreamBytes [1, 2, 4, 7])
        = Run.done (res, s1) ∧
      ∀ outs, res = Except.ok outs →
        (outs.map taken).flatten ++ content s1 = [1, 2, 4, 7] ∧
        (∀ s2, IsEmpty 6 s1 = Run.done (Except.ok true, s2) →
          (outs.map taken).flatten = [1, 2, 4, 7]) :=
  ⟨by decide,
    round_trip_with_delimiters [1, 2, 4, 7] [Call.readUntilAndSkip [2, 4], Call.read 1] 6
      (by decide)⟩

/-- The three loops on the in-memory source `1 2 3`. -/
theorem loops_terminate_over_finite_sources_witness :
    FiniteSource BytesReader (fun r => r.unread.length) ∧
    unconsumed (fun r : BytesReader => r.unread.length) (NewStreamBytes [1, 2, 3]) + 1 ≤ 4 ∧
    Returns (PeekUntil 4 (NewStreamBytes [1, 2, 3]) [9]) ∧
    Returns (ReadWhile 4 (NewStreamBytes [1, 2, 3]) (fun _ => true)) ∧
    Returns (ReadAll 4 (NewStreamBytes [1, 2, 3])) :=
  ⟨finiteSource_bytes, by decide,
    (loops_terminate_over_finite_sources (fun r : BytesReader => r.unread.length)
      finiteSource_bytes (NewStreamBytes [1, 2, 3]) [9] (fun _ => true) [] 4 (by decide)).1,
    (loops_terminate_over_finite_sources (fun r : BytesReader => r.unread.length)
      finiteSource_bytes (NewStreamBytes [1, 2, 3]) [9] (fun _ => true) [] 4 (by decide)).2.1,
    (loops_terminate_over_finite_sources (fun r : BytesReader => r.unread.length)
      finiteSource_bytes (NewStreamBytes [1, 2, 3]) [9] (fun _ => true) [] 4 (by decide)).2.2.1⟩

/-! ## A source that fails after its bytes -/

/-- The loop of `io.ReadAtLeast` stops as soon as `min` bytes are stored. -/
theorem readAtLeastLoop_full {ρ : Type} [IoReader ρ] (bufLen min fuel : Nat) (r : ρ)
    (got : List Byte) (err : Option Error) (h : min ≤ got.length) :
    readAtLeastLoop bufLen min fuel r got err = Run.done (got, err, r) := by
  cases fuel <;> simp [readAtLeastLoop, Nat.not_lt.2 h]

/-- Call `Peek(len(D))` on a new stream over a source that delivers the bytes
`D` and then fails: it pulls all of `D`. -/
theorem Peek_broken_all (D : List Byte) (c fuel : Nat) (hD : 0 < D.length) (hf : 1 ≤ fuel) :
    Peek fuel (⟨⟨D, 0, c⟩, []⟩ : Stream BrokenReader) D.length
      = Run.done (Except.ok D, ⟨⟨D, D.length, c⟩, D⟩) := by
  obtain ⟨f, rfl⟩ : ∃ f, fuel = f + 1 := ⟨fuel - 1, by omega⟩
  have hR : BrokenReader.Read ⟨D, 0, c⟩ D.length
      = (D, none, (⟨D, D.length, c⟩ : BrokenReader)) := by
    simp [BrokenReader.Read, Nat.not_le.2 hD]
  have hRA : ReadAtLeast (f + 1) (⟨D, 0, c⟩ : BrokenReader) D.length D.length
      = Run.done (D, none, ⟨D, D.length, c⟩) := by
    simp only [ReadAtLeast, Nat.lt_irrefl, if_false, readAtLeastLoop, List.length_nil, hD,
      and_self, if_true, Nat.sub_zero, IoReader.Read, hR, List.nil_append,
      readAtLeastLoop_full _ _ _ _ _ _ (Nat.le_refl _), Run.bind_done, ge_iff_le, Nat.le_refl]
  have hsl : sliceFrom (make D.length) 0 = Run.done (make D.length) := by
    simp [sliceFrom]
  have hml : (make D.length).length = D.length := List.length_replicate _ _
  have hst := stored_append_make [] D D.length
  simp only [List.length_nil, List.nil_append, Nat.sub_self] at hst
  have hm0 : make 0 = [] := rfl
  simp only [Peek, List.length_nil, hD, if_true, hsl, Run.bind_done, hml, Nat.sub_zero, hRA,
    List.nil_append, hst, hm0, List.append_nil, sliceTo_of_le (Nat.le_refl D.length),
    List.take_length, dupBytes_eq]

/-- Call `IsEmpty` with nothing pending over a source that has delivered all
its bytes and now fails: the hard error. -/
theorem IsEmpty_broken_end (D : List Byte) (c fuel : Nat) (hf : 1 ≤ fuel) :
    IsEmpty fuel (⟨⟨D, D.length, c⟩, []⟩ : Stream BrokenReader)
      = Run.done (Except.error (Error.other c), ⟨⟨D, D.length, c⟩, []⟩) := by
  obtain ⟨f, rfl⟩ : ∃ f, fuel = f + 1 := ⟨fuel - 1, by omega⟩
  have hR : BrokenReader.Read ⟨D, D.length, c⟩ 1
      = ([], some (Error.other c), (⟨D, D.length, c⟩ : BrokenReader)) := by
    simp [BrokenReader.Read]
  have hRA : ReadAtLeast (f + 1) (⟨D, D.length, c⟩ : BrokenReader) 1 1
      = Run.done ([], some (Error.other c), ⟨D, D.length, c⟩) := by
    simp [ReadAtLeast, readAtLeastLoop, IoReader.Read, hR, readAtLeastLoop_err]
  have hsl : sliceFrom (make 1) 0 = Run.done (make 1) := by
    simp [sliceFrom]
  have hml : (make 1).length = 1 := List.length_replicate _ _
  have hst := stored_append_make [] [] 1
  simp only [List.length_nil, List.nil_append] at hst
  have hE : isEOF (Error.other c) = false := rfl
  simp only [IsEmpty, List.length_nil, gt_iff_lt, Nat.lt_irrefl, if_false, Peek, Nat.zero_lt_one,
    if_true, List.nil_append, hsl, Run.bind_done, hml, Nat.sub_zero, hRA, hst, Nat.add_zero,
    sliceTo_of_le (Nat.zero_le _), List.take_zero, hE, Bool.false_eq_true]

/-- Call `ReadAll` on a new stream over a source that delivers 4096 bytes `D`
and then fails with a hard error: the error, and nothing pending. -/
theorem ReadAll_broken (D : List Byte) (c fuel : Nat) (hD : D.length = 4096) (hf : 1 ≤ fuel) :
    ReadAll fuel (⟨⟨D, 0, c⟩, []⟩ : Stream BrokenReader)
      = Run.done (Except.error (Error.other c), ⟨⟨D, D.length, c⟩, []⟩) := by
  obtain ⟨f, rfl⟩ : ∃ f, fuel = f + 1 := ⟨fuel - 1, by omega⟩
  have hP := Peek_broken_all D c (f + 1) (by omega) hf
  rw [hD] at hP
  have hU : PeekUpTo (f + 1) (⟨⟨D, 0, c⟩, []⟩ : Stream BrokenReader) 4096
      = Run.done (Except.ok D, ⟨⟨D, 4096, c⟩, D⟩) := by
    simp only [PeekUpTo, hP, Run.bind_done, PeekUpTo_clamp]
    rw [List.take_of_length_le (Nat.le_of_eq hD)]
  have hI := IsEmpty_broken_end D c (f + 1) hf
  rw [hD] at hI
  simp only [ReadAll, readAllLoop, hU, Run.bind_done, hD,
    sliceFrom_of_le (Nat.le_of_eq hD.symm), List.drop_of_length_le (Nat.le_of_eq hD), hI]

/-- C15, at failing inputs.  Over a source that delivers 32 even bytes and then
fails with a hard error (a finite source in the sense above), `ReadWhile` of
the even bytes on a new stream returns that error and no data, and `Buf` is
empty afterwards: the 32 bytes pulled from the source are neither returned nor
pending.  Over a source that delivers 4096 bytes and then fails, `ReadAll` on a
new stream returns the error and no data, and `Buf` is empty afterwards. -/
theorem ReadWhile_ReadAll_drop_bytes_on_error :
    ReadWhile 3 (⟨⟨List.replicate 32 2, 0, 7⟩, []⟩ : Stream BrokenReader)
        (fun b => b.val % 2 == 0)
      = Run.done (Except.error (Error.other 7), ⟨⟨List.replicate 32 2, 32, 7⟩, []⟩) ∧
    ReadAll 3 (⟨⟨List.replicate 4096 2, 0, 7⟩, []⟩ : Stream BrokenReader)
      = Run.done (Except.error (Error.other 7), ⟨⟨List.replicate 4096 2, 4096, 7⟩, []⟩) ∧
    FiniteSource BrokenReader (fun r => (r.s.drop r.i).length) := by
  refine ⟨rfl, ?_, finiteSource_broken⟩
  have h := ReadAll_broken (List.replicate 4096 2) 7 3 (List.length_replicate _ _) (by decide)
  rw [List.length_replicate] at h
  exact h

/-! ## The allocator made explicit -/

theorem makeslice_granted (alloc : Nat → Bool) (n : Nat) (h : alloc n = true) :
    makeslice alloc n = Run.done (make n) := by
  simp only [makeslice, h, if_true]

theorem dupBytesAlloc_granted (alloc : Nat → Bool) (data : List Byte)
    (h : alloc data.length = true) : dupBytesAlloc alloc data = Run.done data := by
  have := dupBytes_eq data
  simp only [dupBytes] at this
  simp only [dupBytesAlloc, makeslice_granted alloc _ h, Run.bind_done, this]

/-- Whatever the reader, `Peek(n)` with `n > len(Buf)` panics before any read
when the allocator refuses the `n - len(Buf)` bytes. -/
theorem PeekAlloc_refused {ρ : Type} [IoReader ρ] (alloc : Nat → Bool) (fuel : Nat) (s : Stream ρ)
    (n : Nat) (h : s.Buf.length < n) (ha : alloc (n - s.Buf.length) = false) :
    PeekAlloc alloc fuel s n = Run.panic := by
  simp only [PeekAlloc, h, if_true, makeslice, ha, Bool.false_eq_true, if_false, Run.bind_panic]

/-- Call `Peek(n)` on an in-memory source under an allocator that grants the
`n - len(Buf)` bytes of the growth and, when `n` bytes are there, the `n` bytes
of the copy returned: the outcome is the one with every allocation succeeding. -/
theorem PeekAlloc_bytes (alloc : Nat → Bool) (s : Stream BytesReader) (n fuel : Nat)
    (hf : 2 ≤ fuel) (hrest : s.Buf.length < n → alloc (n - s.Buf.length) = true)
    (hdup : n ≤ (content s).length → alloc n = true) :
    PeekAlloc alloc fuel s n =
      Run.done ((if n ≤ (content s).length then Except.ok ((content s).take n)
        else Except.error (eofError s.Reader.unread)), afterPeek s n) := by
  rw [← Peek_bytes s n fuel hf]
  rcases Nat.lt_or_ge s.Buf.length n with hlt | hge
  · have hrest1 := hrest hlt
    have hsl : sliceFrom (s.Buf ++ make (n - s.Buf.length)) s.Buf.length
        = Run.done (make (n - s.Buf.length)) := by
      rw [sliceFrom_of_le (by simp)]; simp
    have hml : (make (n - s.Buf.length)).length = n - s.Buf.length := List.length_replicate _ _
    have hrest0 : 0 < n - s.Buf.length := by omega
    simp only [PeekAlloc, Peek, hlt, if_true, makeslice_granted alloc _ hrest1, hsl, Run.bind_done,
      hml, ReadAtLeast_bytes s.Reader _ fuel hrest0 hf, stored_append_make]
    rcases Nat.lt_or_ge s.Reader.unread.length (n - s.Buf.length) with hu | hu
    · simp only [Nat.not_le.2 hu, if_false]
    · have hn : n ≤ (content s).length := by rw [length_content]; omega
      have htl : (s.Reader.unread.take (n - s.Buf.length)).length = n - s.Buf.length := by
        simp [List.length_take, Nat.min_eq_left hu]
      have hle : n ≤ (s.Buf ++ List.take (n - s.Buf.length) s.Reader.unread ++
          make (n - s.Buf.length - (List.take (n - s.Buf.length) s.Reader.unread).length)).length := by
        simp only [List.length_append, htl]; omega
      simp only [hu, if_true, sliceTo_of_le hle, Run.bind_done, dupBytes_eq]
      rw [dupBytesAlloc_granted alloc _ (by
        rw [List.length_take, Nat.min_eq_left hle]; exact hdup hn)]
      rfl
  · have hn : n ≤ (content s).length := by rw [length_content]; omega
    simp only [PeekAlloc, Peek, Nat.not_lt.2 hge, if_false, sliceTo_of_le hge, Run.bind_done,
      dupBytes_eq]
    rw [dupBytesAlloc_granted alloc _ (by
      rw [List.length_take, Nat.min_eq_left hge]; exact hdup hn)]
    rfl

/-- Call `PeekUpTo(n)` on an in-memory source under an allocator that grants
every request of at most `n` bytes. -/
theorem PeekUpToAlloc_bytes (alloc : Nat → Bool) (s : Stream BytesReader) (n fuel : Nat)
    (hf : 2 ≤ fuel) (ha : ∀ k, k ≤ n → alloc k = true) :
    PeekUpToAlloc alloc fuel s n = Run.done (Except.ok ((content s).take n), afterPeek s n) := by
  have hP := PeekAlloc_bytes alloc s n fuel hf (fun _ => ha _ (Nat.sub_le _ _))
    (fun _ => ha n (Nat.le_refl n))
  have key : (sliceTo (afterPeek s n).Buf
      (if n ≥ (afterPeek s n).Buf.length then (afterPeek s n).Buf.length else n)).bind
        (fun d => (dupBytesAlloc alloc d).bind fun c =>
          Run.done ((Except.ok c : Except Error (List Byte)), afterPeek s n))
      = Run.done (Except.ok ((content s).take n), afterPeek s n) := by
    rcases Nat.lt_or_ge n (afterPeek s n).Buf.length with h | h
    · rw [if_neg (Nat.not_le.2 h), sliceTo_of_le (Nat.le_of_lt h)]
      simp only [Run.bind_done]
      rw [dupBytesAlloc_granted alloc _ (ha _ (List.length_take_le _ _))]
      simp only [Run.bind_done, take_afterPeek_Buf]
    · rw [if_pos h, sliceTo_of_le (Nat.le_refl _)]
      simp only [Run.bind_done, List.take_length]
      rw [dupBytesAlloc_granted alloc _ (ha _ h)]
      simp only [Run.bind_done]
      rw [← take_afterPeek_Buf, List.take_of_length_le h]
  simp only [PeekUpToAlloc, hP, Run.bind_done]
  by_cases hn : n ≤ (content s).length
  · simp only [hn, if_true]
    exact key
  · simp only [hn, if_false, isEOF_eofError, Bool.not_true, Bool.false_eq_true]
    exact key

/-- C2, as stated, fails: on the source `1 2 3` with nothing pending, under the
allocator of a 64-bit Linux, `Peek(2^63 - 1)` asks for `2^63 - 1` bytes before
it reads, is refused and panics; it returns no end-of-input error although
`2^63 - 1` exceeds the three bytes of the stream. -/
theorem Peek_huge_length_panics :
    (NewStreamBytes [1, 2, 3]).Buf.length + (NewStreamBytes [1, 2, 3]).Reader.unread.length
      < 2 ^ 63 - 1 ∧
    PeekAlloc allocLinux64 2 (NewStreamBytes [1, 2, 3]) (2 ^ 63 - 1) = Run.panic ∧
    ¬ ∃ e s1, PeekAlloc allocLinux64 2 (NewStreamBytes [1, 2, 3]) (2 ^ 63 - 1)
      = Run.done (Except.error e, s1) := by
  have hp : PeekAlloc allocLinux64 2 (NewStreamBytes [1, 2, 3]) (2 ^ 63 - 1) = Run.panic :=
    PeekAlloc_refused allocLinux64 2 (NewStreamBytes [1, 2, 3]) (2 ^ 63 - 1) (by decide)
      (by decide)
  refine ⟨by decide, hp, ?_⟩
  rintro ⟨e, s1, h⟩
  rw [hp] at h
  cases h

/-- C2, amended: on an in-memory source, for every `n > len(Buf) + len(unread)`
whose `n - len(Buf)` bytes the allocator grants, `Peek(n)` returns no data and
an end-of-input error (`io.EOF` or `io.ErrUnexpectedEOF`, both recognised by
`isEOF`), and afterwards `Buf` is the former `Buf` followed by all the bytes
the source still had. -/
theorem PeekAlloc_short_keeps_bytes (alloc : Nat → Bool) (s : Stream BytesReader)
    (n fuel : Nat) (hf : 2 ≤ fuel) (hn : s.Buf.length + s.Reader.unread.length < n)
    (ha : alloc (n - s.Buf.length) = true) :
    ∃ e s1, PeekAlloc alloc fuel s n = Run.done (Except.error e, s1) ∧
      (e = Error.EOF ∨ e = Error.ErrUnexpectedEOF) ∧ isEOF e = true ∧
      s1.Buf = s.Buf ++ s.Reader.unread ∧ s1.Reader.unread = [] := by
  have hlen : ¬ n ≤ (content s).length := by rw [length_content]; omega
  refine ⟨eofError s.Reader.unread, afterPeek s n, ?_, ?_, isEOF_eofError _, ?_, ?_⟩
  · rw [PeekAlloc_bytes alloc s n fuel hf (fun _ => ha) (fun h => absurd h hlen), if_neg hlen]
  · unfold eofError; split <;> simp
  · exact afterPeek_Buf_of_ge s n (by rw [length_content]; omega)
  · simp only [afterPeek, BytesReader.unread_advance]
    exact List.drop_of_length_le (by omega)

/-- Call `Peek(7)` with one pending byte `9` over the source `1 2 3 4 5` read up
to index 1, which holds five bytes in all. -/
theorem PeekAlloc_short_keeps_bytes_witness :
    2 ≤ 2 ∧ 1 + 4 < 7 ∧ allocLinux64 (7 - 1) = true ∧
    ∃ e s1, PeekAlloc allocLinux64 2 (⟨⟨[1, 2, 3, 4, 5], 1⟩, [9]⟩ : Stream BytesReader) 7
        = Run.done (Except.error e, s1) ∧
      (e = Error.EOF ∨ e = Error.ErrUnexpectedEOF) ∧ isEOF e = true ∧
      s1.Buf = [9, 2, 3, 4, 5] ∧ s1.Reader.unread = [] :=
  ⟨by decide, by decide, by decide,
    PeekAlloc_short_keeps_bytes allocLinux64 ⟨⟨[1, 2, 3, 4, 5], 1⟩, [9]⟩ 7 2 (by decide)
      (by decide) (by decide)⟩

/-- C4, as stated, fails: on the source `1 2 3`, under the allocator of a
64-bit Linux, `Skip(2^63 - 1)`, `Peek(2^63 - 1)` and `Read(2^63 - 1)` panic in
the allocation before any read; `Skip` returns no error although `2^63 - 1`
exceeds the three bytes of the stream. -/
theorem Skip_huge_length_panics :
    (content (NewStreamBytes [1, 2, 3])).length < 2 ^ 63 - 1 ∧
    SkipAlloc allocLinux64 2 (NewStreamBytes [1, 2, 3]) (2 ^ 63 - 1) = Run.panic ∧
    ReadAlloc allocLinux64 2 (NewStreamBytes [1, 2, 3]) (2 ^ 63 - 1) = Run.panic ∧
    ¬ ∃ e s1, SkipAlloc allocLinux64 2 (NewStreamBytes [1, 2, 3]) (2 ^ 63 - 1)
      = Run.done (Except.error e, s1) := by
  have hp : PeekAlloc allocLinux64 2 (NewStreamBytes [1, 2, 3]) (2 ^ 63 - 1) = Run.panic :=
    PeekAlloc_refused allocLinux64 2 (NewStreamBytes [1, 2, 3]) (2 ^ 63 - 1) (by decide)
      (by decide)
  have hs : SkipAlloc allocLinux64 2 (NewStreamBytes [1, 2, 3]) (2 ^ 63 - 1) = Run.panic := by
    simp only [SkipAlloc, hp, Run.bind_panic]
  have hr : ReadAlloc allocLinux64 2 (NewStreamBytes [1, 2, 3]) (2 ^ 63 - 1) = Run.panic := by
    simp only [ReadAlloc, hp, Run.bind_panic]
  refine ⟨by decide, hs, hr, ?_⟩
  rintro ⟨e, s1, h⟩
  rw [hs] at h
  cases h

/-- C4, amended: on an in-memory source with content `C`, for every `n` such
that the allocator grants the requests of at most `n` bytes: `Skip(n)` succeeds
when `n <= len(C)`, as `Peek(n)` does, and the content afterwards is `C`
without its first `n` bytes; when `n > len(C)`, `Skip(n)`, `Peek(n)` and
`Read(n)` all fail with the same error, and after a failed `Skip(n)` or
`Read(n)` the content is still `C`. -/
theorem SkipAlloc_fails_iff_PeekAlloc_fails (alloc : Nat → Bool) (s : Stream BytesReader)
    (n fuel : Nat) (hf : 2 ≤ fuel) (ha : ∀ k, k ≤ n → alloc k = true) :
    (n ≤ (content s).length →
      ∃ s1 d s2, SkipAlloc alloc fuel s n = Run.done (Except.ok (), s1) ∧
        PeekAlloc alloc fuel s n = Run.done (Except.ok d, s2) ∧
        content s1 = (content s).drop n) ∧
    ((content s).length < n →
      ∃ e s1 s2 s3, SkipAlloc alloc fuel s n = Run.done (Except.error e, s1) ∧
        PeekAlloc alloc fuel s n = Run.done (Except.error e, s2) ∧
        ReadAlloc alloc fuel s n = Run.done (Except.error e, s3) ∧
        content s1 = content s ∧ content s3 = content s) := by
  have hP := PeekAlloc_bytes alloc s n fuel hf (fun _ => ha _ (Nat.sub_le _ _))
    (fun _ => ha n (Nat.le_refl n))
  constructor
  · intro hn
    rw [if_pos hn] at hP
    refine ⟨⟨(afterPeek s n).Reader, (afterPeek s n).Buf.drop n⟩, (content s).take n,
      afterPeek s n, ?_, hP, content_afterPeek_drop s n hn⟩
    simp only [SkipAlloc, hP, Run.bind_done, sliceFrom_of_le (length_afterPeek_Buf_ge s n hn)]
  · intro hn
    rw [if_neg (Nat.not_le.2 hn)] at hP
    refine ⟨eofError s.Reader.unread, afterPeek s n, afterPeek s n, afterPeek s n, ?_, hP, ?_,
      content_afterPeek s n, content_afterPeek s n⟩
    · simp only [SkipAlloc, hP, Run.bind_done]
    · simp only [ReadAlloc, hP, Run.bind_done]

/-- Call `Skip(7)`, `Peek(7)` and `Read(7)` with one pending byte `9` over the
source `1 2 3 4 5` read up to index 1, which holds five bytes in all. -/
theorem SkipAlloc_fails_iff_PeekAlloc_fails_witness :
    2 ≤ 2 ∧ (∀ k, k ≤ 7 → allocLinux64 k = true) ∧
    ∃ e s1 s2 s3,
      SkipAlloc allocLinux64 2 (⟨⟨[1, 2, 3, 4, 5], 1⟩, [9]⟩ : Stream BytesReader) 7
        = Run.done (Except.error e, s1) ∧
      PeekAlloc allocLinux64 2 (⟨⟨[1, 2, 3, 4, 5], 1⟩, [9]⟩ : Stream BytesReader) 7
        = Run.done (Except.error e, s2) ∧
      ReadAlloc allocLinux64 2 (⟨⟨[1, 2, 3, 4, 5], 1⟩, [9]⟩ : Stream BytesReader) 7
        = Run.done (Except.error e, s3) ∧
      content s1 = [9, 2, 3, 4, 5] ∧ content s3 = [9, 2, 3, 4, 5] :=
  ⟨by decide, by decide,
    (SkipAlloc_fails_iff_PeekAlloc_fails allocLinux64 ⟨⟨[1, 2, 3, 4, 5], 1⟩, [9]⟩ 7 2 (by decide)
      (by decide)).2 (by decide)⟩

/-- C9, as stated, fails: on the source `1 2 3`, under the allocator of a
64-bit Linux, `PeekUpTo(2^63 - 1)` panics in the allocation of `Peek` before
any read; it does not return the three bytes available. -/
theorem PeekUpTo_huge_length_panics :
    PeekUpToAlloc allocLinux64 2 (NewStreamBytes [1, 2, 3]) (2 ^ 63 - 1) = Run.panic ∧
    ¬ ∃ data s1, PeekUpToAlloc allocLinux64 2 (NewStreamBytes [1, 2, 3]) (2 ^ 63 - 1)
      = Run.done (Except.ok data, s1) := by
  have hp : PeekAlloc allocLinux64 2 (NewStreamBytes [1, 2, 3]) (2 ^ 63 - 1) = Run.panic :=
    PeekAlloc_refused allocLinux64 2 (NewStreamBytes [1, 2, 3]) (2 ^ 63 - 1) (by decide)
      (by decide)
  have hu : PeekUpToAlloc allocLinux64 2 (NewStreamBytes [1, 2, 3]) (2 ^ 63 - 1) = Run.panic := by
    simp only [PeekUpToAlloc, hp, Run.bind_panic]
  refine ⟨hu, ?_⟩
  rintro ⟨data, s1, h⟩
  rw [hu] at h
  cases h

/-- C9, amended: on an in-memory source with content `C`, for every `n` such
that the allocator grants the requests of at most `n` bytes, `PeekUpTo(n)`
returns without error the first `min(n, len(C))` bytes of `C` (all of `C` when
it has fewer than `n` bytes), and the content afterwards is still `C`. -/
theorem PeekUpToAlloc_returns_available (alloc : Nat → Bool) (s : Stream BytesReader)
    (n fuel : Nat) (hf : 2 ≤ fuel) (ha : ∀ k, k ≤ n → alloc k = true) :
    ∃ s1, PeekUpToAlloc alloc fuel s n =
        Run.done (Except.ok ((content s).take (min n (content s).length)), s1) ∧
      ((content s).length ≤ n →
        PeekUpToAlloc alloc fuel s n = Run.done (Except.ok (content s), s1)) ∧
      content s1 = content s := by
  have h1 : (content s).take (min n (content s).length) = (content s).take n := by
    rcases Nat.le_total n (content s).length with h | h
    · rw [Nat.min_eq_left h]
    · rw [Nat.min_eq_right h, List.take_length, List.take_of_length_le h]
  refine ⟨afterPeek s n, ?_, ?_, content_afterPeek s n⟩
  · rw [PeekUpToAlloc_bytes alloc s n fuel hf ha, h1]
  · intro h
    rw [PeekUpToAlloc_bytes alloc s n fuel hf ha, List.take_of_length_le h]

/-- Call `PeekUpTo(6)` on the source `1 2 3`. -/
theorem PeekUpToAlloc_returns_available_witness :
    2 ≤ 2 ∧ (∀ k, k ≤ 6 → allocLinux64 k = true) ∧
    ∃ s1, PeekUpToAlloc allocLinux64 2 (NewStreamBytes [1, 2, 3]) 6
        = Run.done (Except.ok [1, 2, 3], s1) ∧
      (3 ≤ 6 → PeekUpToAlloc allocLinux64 2 (NewStreamBytes [1, 2, 3]) 6
        = Run.done (Except.ok [1, 2, 3], s1)) ∧
      content s1 = [1, 2, 3] :=
  ⟨by decide, by decide,
    PeekUpToAlloc_returns_available allocLinux64 (NewStreamBytes [1, 2, 3]) 6 2 (by decide)
      (by decide)⟩

end GoStream
